import Mathlib

/-!
Verification of the schema-reconciliation pipeline of the flask_proxy
repository (`src/mitm/compare_json.py`, `src/mitm/generate_fix_data_script.py`,
`src/mitm/utils.py`, `src/mitm/intercept.py`).

The payloads handled by the proxy are decoded JSON trees (Python values
produced by `json.loads`).  We embed them as the inductive type `Json`;
Python dicts become association lists in insertion order (keys are unique in
any dict produced by `json.loads`; the operations below are defined so that
they coincide with Python dict semantics on unique-keyed objects).
-/

set_option maxHeartbeats 1000000
set_option maxRecDepth 100000

namespace FlaskProxy

/-- A decoded JSON value, as produced by Python's `json.loads`.
`num` covers Python ints (the float case plays no role in the claims). -/
inductive Json where
  | null
  | bool (b : Bool)
  | num (n : Int)
  | str (s : String)
  | arr (elems : List Json)
  | obj (fields : List (String × Json))
  deriving Repr, Inhabited

mutual

/-- Structural equality test on `Json` (Python `==` on decoded values). -/
def Json.beq : Json → Json → Bool
  | .null, .null => true
  | .bool a, .bool b => a == b
  | .num a, .num b => a == b
  | .str a, .str b => a == b
  | .arr as, .arr bs => Json.beqElems as bs
  | .obj fa, .obj fb => Json.beqFields fa fb
  | _, _ => false

def Json.beqElems : List Json → List Json → Bool
  | [], [] => true
  | x :: xs, y :: ys => Json.beq x y && Json.beqElems xs ys
  | _, _ => false

def Json.beqFields : List (String × Json) → List (String × Json) → Bool
  | [], [] => true
  | (k1, v1) :: xs, (k2, v2) :: ys => k1 == k2 && Json.beq v1 v2 && Json.beqFields xs ys
  | _, _ => false

end

instance : BEq Json := ⟨Json.beq⟩

theorem Json.beqElems_iff (as : List Json)
    (ih : ∀ x ∈ as, ∀ y : Json, Json.beq x y = true ↔ x = y) :
    ∀ bs, Json.beqElems as bs = true ↔ as = bs := by
  induction as with
  | nil => intro bs; cases bs <;> simp [Json.beqElems]
  | cons x xs ihx =>
      intro bs
      cases bs with
      | nil => simp [Json.beqElems]
      | cons y ys =>
          have h1 := ih x (by simp) y
          have h2 := ihx (fun z hz w => ih z (by simp [hz]) w) ys
          simp [Json.beqElems, h1, h2]

theorem Json.beqFields_iff (fs : List (String × Json))
    (ih : ∀ kv ∈ fs, ∀ y : Json, Json.beq kv.2 y = true ↔ kv.2 = y) :
    ∀ gs, Json.beqFields fs gs = true ↔ fs = gs := by
  induction fs with
  | nil => intro gs; cases gs <;> simp [Json.beqFields]
  | cons kv xs ihx =>
      intro gs
      cases gs with
      | nil => cases kv; simp [Json.beqFields]
      | cons kw ys =>
          cases kv with
          | mk k1 v1 =>
              cases kw with
              | mk k2 v2 =>
                  have h1 := ih (k1, v1) (by simp) v2
                  have h2 := ihx (fun z hz w => ih z (by simp [hz]) w) ys
                  simp only at h1
                  simp [Json.beqFields, h1, h2, and_assoc]

theorem Json.beq_iff_aux : ∀ (n : Nat) (a b : Json), sizeOf a ≤ n →
    (Json.beq a b = true ↔ a = b) := by
  intro n
  induction n with
  | zero =>
      intro a b h
      exfalso
      cases a <;> simp at h
  | succ n ih =>
      intro a b h
      cases a with
      | null => cases b <;> simp [Json.beq]
      | bool x => cases b <;> simp [Json.beq]
      | num x => cases b <;> simp [Json.beq]
      | str x => cases b <;> simp [Json.beq]
      | arr as =>
          cases b with
          | arr bs =>
              have helems := Json.beqElems_iff as (fun x hx y => ih x y (by
                have hlt : sizeOf x < sizeOf as := List.sizeOf_lt_of_mem hx
                have hs : sizeOf (Json.arr as) = 1 + sizeOf as := by simp
                omega)) bs
              simp [Json.beq, helems]
          | null => simp [Json.beq]
          | bool y => simp [Json.beq]
          | num y => simp [Json.beq]
          | str y => simp [Json.beq]
          | obj gs => simp [Json.beq]
      | obj fs =>
          cases b with
          | obj gs =>
              have hfields := Json.beqFields_iff fs (fun kv hkv y => ih kv.2 y (by
                have hlt : sizeOf kv < sizeOf fs := List.sizeOf_lt_of_mem hkv
                have hkv2 : sizeOf kv.2 < sizeOf kv := by
                  cases kv with
                  | mk a c => simp
                have hs : sizeOf (Json.obj fs) = 1 + sizeOf fs := by simp
                omega)) gs
              simp [Json.beq, hfields]
          | null => simp [Json.beq]
          | bool y => simp [Json.beq]
          | num y => simp [Json.beq]
          | str y => simp [Json.beq]
          | arr bs => simp [Json.beq]

theorem Json.beq_iff (a b : Json) : Json.beq a b = true ↔ a = b :=
  Json.beq_iff_aux (sizeOf a) a b (Nat.le_refl _)

instance : DecidableEq Json :=
  fun a b => decidable_of_iff (Json.beq a b = true) (Json.beq_iff a b)

/-- The keys of a Python dict, in insertion order. -/
def keysOf (fs : List (String × Json)) : List String :=
  fs.map Prod.fst

/-- `key in d` on a Python dict. -/
def containsKey (fs : List (String × Json)) (k : String) : Bool :=
  fs.any (fun kv => kv.1 == k)

/-- `d[key]` on a Python dict, as an option (`none` models `KeyError`). -/
def getKV (fs : List (String × Json)) (k : String) : Option Json :=
  (fs.find? (fun kv => kv.1 == k)).map Prod.snd

/-- `d[key]` on a Python dict where the key is known to be present
(defaults to `null` otherwise; never reached in that case). -/
def getD (fs : List (String × Json)) (k : String) : Json :=
  (getKV fs k).getD .null

/-- `d[key] = v` on a Python dict when the key exists: replace the value in
place, keeping the position of the binding. -/
def replaceKV (fs : List (String × Json)) (k : String) (v : Json) : List (String × Json) :=
  fs.map (fun kv => if kv.1 == k then (k, v) else kv)

/-- `d[key] = v` on a Python dict: replace in place if the key exists,
otherwise append the binding at the end. -/
def insertKV (fs : List (String × Json)) (k : String) (v : Json) : List (String × Json) :=
  if containsKey fs k then replaceKV fs k v else fs ++ [(k, v)]

/-- `del d[key]` on a Python dict. -/
def eraseKV (fs : List (String × Json)) (k : String) : List (String × Json) :=
  fs.filter (fun kv => ¬ kv.1 == k)

/-- The union of the key sets of two dicts.  The source iterates over
`set(a.keys()).union(b.keys())`, whose order is unspecified; we fix the
deterministic order "keys of `a`, then keys of `b` not in `a`" (none of the
verified properties depends on the order of this union). -/
def unionKeys (fa fb : List (String × Json)) : List String :=
  keysOf fa ++ (keysOf fb).filter (fun k => ¬ containsKey fa k)

/-- `type(x).__name__` for the values that can appear in a decoded payload. -/
def typeName : Json → String
  | .null => "NoneType"
  | .bool _ => "bool"
  | .num _ => "int"
  | .str _ => "str"
  | .arr _ => "list"
  | .obj _ => "dict"

/-- The values stored in the diff map returned by `compare_json_keys`:
`"Missing in A"`, `"Missing in B"`, or `"Type mismatch: X vs Y"`. -/
inductive DiffV where
  | missingInA
  | missingInB
  | typeMismatch (ta tb : String)
  deriving DecidableEq, Repr

/-- `f"{path}.{key}" if path else key` from the source. -/
def childPath (path key : String) : String :=
  if path = "" then key else path ++ "." ++ key

theorem sizeOf_getKV_lt {fs : List (String × Json)} {k : String} {v : Json}
    (h : getKV fs k = some v) : sizeOf v < 1 + sizeOf fs := by
  unfold getKV at h
  cases hf : fs.find? (fun kv => kv.1 == k) with
  | none => rw [hf] at h; simp at h
  | some kv =>
      rw [hf] at h
      simp only [Option.map_some', Option.some.injEq] at h
      subst h
      have hmem := List.mem_of_find?_eq_some hf
      have h1 : sizeOf kv < sizeOf fs := List.sizeOf_lt_of_mem hmem
      have h2 : sizeOf kv.2 < sizeOf kv := by
        cases kv with
        | mk a b => simp
      omega

theorem sizeOf_getD_lt {fs : List (String × Json)} {k : String}
    (h : containsKey fs k = true) : sizeOf (getD fs k) < 1 + sizeOf fs := by
  unfold containsKey at h
  rcases List.any_eq_true.mp h with ⟨kv, hmem, hk⟩
  unfold getD
  cases hf : getKV fs k with
  | none =>
      exfalso
      unfold getKV at hf
      cases hff : fs.find? (fun kv => kv.1 == k) with
      | none =>
          have := List.find?_eq_none.mp hff kv hmem
          simp_all
      | some w => rw [hff] at hf; simp at hf
  | some v => simpa using sizeOf_getKV_lt hf

mutual

/--
`compare_json_keys(a, b, path)` from `src/mitm/compare_json.py`:
recursive key-structure comparison of two JSON trees.  The Python function
returns a dict from path to message; we return the corresponding association
list in the order the entries are produced.

The source iterates over `set(a.keys()).union(b.keys())`, whose order is
unspecified; we fix the deterministic order "keys of `a` first, then keys
of `b` that are not in `a`" (none of the verified properties depends on the
order of the union).  The branch structure is exactly that of the source:
a key absent from `a` is `Missing in A`, a key absent from `b` is
`Missing in B`, a key present in both is recursed into; two non-empty lists
are compared via their first elements only, an empty list against a
non-empty one records a missing entry at `path[0]`; in every other case a
runtime-type disagreement records a type mismatch at `path`.
-/
def compare_json_keys : Json → Json → String → List (String × DiffV)
  | .obj fa, .obj fb, path =>
      compareFieldsA fa fb path ++
        (keysOf fb).filterMap (fun k =>
          if containsKey fa k then none else some (childPath path k, DiffV.missingInA))
  | .arr (x :: _), .arr (y :: _), path =>
      compare_json_keys x y (path ++ "[0]")
  | .arr (_ :: _), .arr [], path => [(path ++ "[0]", DiffV.missingInB)]
  | .arr [], .arr (_ :: _), path => [(path ++ "[0]", DiffV.missingInA)]
  | .arr [], .arr [], _ => []
  | a, b, path =>
      if typeName a ≠ typeName b then [(path, DiffV.typeMismatch (typeName a) (typeName b))]
      else []

/-- The part of the key-union iteration of `compare_json_keys` that walks
the keys of `a` in order: a key missing from `b` records `Missing in B`,
a key present in both recurses. -/
def compareFieldsA : List (String × Json) → List (String × Json) → String → List (String × DiffV)
  | [], _, _ => []
  | (k, v) :: rest, fb, path =>
      (if containsKey fb k then compare_json_keys v (getD fb k) (childPath path k)
       else [(childPath path k, DiffV.missingInB)]) ++ compareFieldsA rest fb path

end

/-- Length of the common prefix of two character lists. -/
def commonRun : List Char → List Char → Nat
  | a :: as, b :: bs => if a = b then 1 + commonRun as bs else 0
  | _, _ => 0

/-- The longest matching block of `difflib.SequenceMatcher.find_longest_match`
on two short strings (no junk, no autojunk: field names are far below the
200-character autojunk threshold): the triple `(i, j, size)` with maximal
`size`, ties resolved towards the smallest `i`, then the smallest `j` —
exactly the first maximal block found by the source's ascending scan. -/
def findLongest (a b : List Char) : Nat × Nat × Nat :=
  ((List.range a.length).flatMap (fun i =>
    (List.range b.length).map (fun j => (i, j, commonRun (a.drop i) (b.drop j))))).foldl
    (fun best c => if c.2.2 > best.2.2 then c else best) (0, 0, 0)

/-- Total number of matched characters of `difflib.SequenceMatcher
.get_matching_blocks` (Ratcliff–Obershelp): recursively take the longest
matching block and recurse on the pieces to its left and to its right.
`fuel` is structural fuel; `a.length + b.length` always suffices because
every recursive call strictly decreases the combined length. -/
def matchTotalF (fuel : Nat) (a b : List Char) : Nat :=
  match fuel with
  | 0 => 0
  | fuel + 1 =>
      let ijk := findLongest a b
      let i := ijk.1
      let j := ijk.2.1
      let k := ijk.2.2
      if k = 0 then 0
      else matchTotalF fuel (a.take i) (b.take j) + k +
           matchTotalF fuel (a.drop (i + k)) (b.drop (j + k))

def matchTotal (a b : List Char) : Nat :=
  matchTotalF (a.length + b.length) a b

/-- Python `round` (half-to-even) of the fraction `num / den`, `den ≠ 0`,
as an exact operation on the rational value.  (The source rounds the IEEE
double `difflib` ratio; we idealize the binary representation away and
round the exact rational instead.) -/
def roundHalfEven (num den : Nat) : Nat :=
  let q := num / den
  let r := num % den
  if 2 * r < den then q
  else if 2 * r > den then q + 1
  else if q % 2 = 0 then q else q + 1

/--
`compare_words(word1, word2)` from `src/mitm/compare_json.py`:
`round(difflib.SequenceMatcher(None, word1, word2).ratio(), 3)`.

The `difflib` ratio is `2 * M / (len(word1) + len(word2))` (and `1.0` when
both words are empty), with `M` the total matched characters.  The source
keeps the rounded value as a float in `[0, 1]`; since every comparison and
sort in the pipeline uses only the ordering of these 3-decimal values, we
represent the score by its integer number of thousandths (`0 ... 1000`),
i.e. the float value multiplied by `1000`.
-/
def compare_words (w1 w2 : String) : Nat :=
  let a := w1.toList
  let b := w2.toList
  let t := a.length + b.length
  if t = 0 then 1000
  else roundHalfEven (2000 * matchTotal a b) t

/-- Python `key.split(".")` (every occurrence of the dot separator splits;
empty pieces are preserved; the empty string yields `[""]`). -/
def splitDot (s : String) : List String :=
  (splitDotChars s.toList).map List.asString
where
  splitDotChars : List Char → List (List Char)
    | [] => [[]]
    | c :: rest =>
        if c = '.' then [] :: splitDotChars rest
        else
          match splitDotChars rest with
          | p :: ps => (c :: p) :: ps
          | [] => [[c]]

/-- Python `".".join(parts)`. -/
def joinDot : List String → String
  | [] => ""
  | [x] => x
  | x :: xs => x ++ "." ++ joinDot xs

/-- `".".join(key.split(".")[:-1])` from `finall_boss_improved`: the parent
path of a dotted field path. -/
def basePathOf (key : String) : String :=
  joinDot (splitDot key).dropLast

/-- `key.split(".")[-1]` from `finall_boss_improved`: the field-name part of
a dotted field path. -/
def fieldNameOf (key : String) : String :=
  (splitDot key).getLastD ""

/-- The inner candidate scan of `finall_boss_improved`: for a wrong field
(`Missing in A`) with parent path `aPath` and field name `aField`, fold over
the diff map keeping the best-scoring `Missing in B` entry with the same
parent path.  State is `(best_match, best_score)`, initially `(None, 0)`;
a candidate replaces the state only when its score is strictly greater. -/
def bestFor (obj : List (String × DiffV)) (aPath aField : String) : Option String × Nat :=
  obj.foldl (fun st bkv =>
    if bkv.2 = DiffV.missingInB then
      let bPath := basePathOf bkv.1
      let bField := fieldNameOf bkv.1
      if bPath = aPath then
        let score := compare_words aField bField
        if score > st.2 then (some bkv.1, score) else st
      else st
    else st) (none, 0)

/-- Stable insertion into a score-descending list: the new element goes in
front of the first strictly-smaller score, after equal scores seen so far
are kept in place.  `insertDesc` + `sortDescByScore` model Python's stable
`matches.sort(key=lambda x: x[2], reverse=True)`. -/
def insertDesc (x : String × String × Nat) :
    List (String × String × Nat) → List (String × String × Nat)
  | [] => [x]
  | y :: ys => if x.2.2 ≥ y.2.2 then x :: y :: ys else y :: insertDesc x ys

def sortDescByScore : List (String × String × Nat) → List (String × String × Nat)
  | [] => []
  | x :: xs => insertDesc x (sortDescByScore xs)

/-- The contribution of one diff entry to the match list of
`finall_boss_improved`: a `Missing in A` entry yields one triple when the
inner scan selects a candidate, and nothing otherwise. -/
def candidateFor (obj : List (String × DiffV)) (akv : String × DiffV) :
    List (String × String × Nat) :=
  if akv.2 = DiffV.missingInA then
    match bestFor obj (basePathOf akv.1) (fieldNameOf akv.1) with
    | (some bk, score) => [(akv.1, bk, score)]
    | (none, _) => []
  else []

/--
`finall_boss_improved(obj)` from `src/mitm/compare_json.py`: for every
`Missing in A` entry of the diff map (a field sent by the client but absent
from the schema), find the best-scoring `Missing in B` entry (a schema field
absent from the payload) with the same parent path; emit the triple
`(wrong_key, best_match, best_score)` when a candidate with positive score
exists, and sort all triples by score, highest first.
-/
def finall_boss_improved (obj : List (String × DiffV)) : List (String × String × Nat) :=
  sortDescByScore (obj.flatMap (candidateFor obj))

/-- `compare_json(json_a, json_b)` returns both the diff map and the ranked
rename candidates; we model the pair by its two projections and use
`simOf` for the `"similarity"` component. -/
def simOf (a b : Json) : List (String × String × Nat) :=
  finall_boss_improved (compare_json_keys a b "")

mutual

/-- The claim's characterization of an empty diff, following the words of
the specification (not the source): the two trees have identical key
structure and matching leaf runtime types at every path, where two
sequences are compared only via their first elements (an empty sequence
against a non-empty one is a mismatch). -/
def structMatch : Json → Json → Bool
  | .obj fa, .obj fb =>
      structMatchFields fa fb && (keysOf fb).all (fun k => containsKey fa k)
  | .arr [], .arr [] => true
  | .arr (x :: _), .arr (y :: _) => structMatch x y
  | .arr _, .arr _ => false
  | a, b => typeName a == typeName b

/-- Every key of `fa` is present in `fb` and the values match recursively. -/
def structMatchFields : List (String × Json) → List (String × Json) → Bool
  | [], _ => true
  | (k, v) :: rest, fb =>
      containsKey fb k && structMatch v (getD fb k) && structMatchFields rest fb

end

/-! ### Semantics of the generated correction scripts

`generate_fix_data_script(field_similarity_tuples, file_path)` in
`src/mitm/generate_fix_data_script.py` emits a Python script whose
`fix_data(data)` runs, for each tuple `(incorrect_path, correct_path, _)`,
the block

  - `if '<wl>' in data['<p1>']...['<pn>']:` (the parents of the incorrect
    path, then a membership test on its last component),
  - `data['<c1>']...['<cm>'] = data['<p1>']...['<pn>']['<wl>']` (the right
    hand side is evaluated first, then the target chain),
  - `del data['<p1>']...['<pn>']['<wl>']`,

all inside `try: ... except (KeyError, TypeError): pass`, so an exception at
any point abandons the rest of the block but keeps the mutations already
made.  The definitions below give the exact semantics of one such block
(`applyRule`) and of `fix_data` (`fix_data`). -/

/-- Evaluation of a subscript chain `data['k1']...['kn']`: every step is a
dict lookup; a missing key raises `KeyError` and subscripting a non-dict by
a string raises `TypeError`, both modeled by `none`. -/
def lookupJ : Json → List String → Option Json
  | d, [] => some d
  | .obj fs, k :: rest =>
      match getKV fs k with
      | some v => lookupJ v rest
      | none => none
  | _, _ :: _ => none

/-- `data['k1']...['kn'] = v`: the parent chain is evaluated like `lookupJ`,
then the final subscript assignment requires a dict (otherwise `TypeError`).
The result is the functionally updated tree; `none` models an exception
raised before any mutation happened. -/
def setJ : Json → List String → Json → Option Json
  | .obj fs, [k], v => some (.obj (insertKV fs k v))
  | .obj fs, k :: k2 :: rest, v =>
      match getKV fs k with
      | some child => (setJ child (k2 :: rest) v).map (fun c => Json.obj (replaceKV fs k c))
      | none => none
  | _, _, _ => none

/-- `del data['k1']...['kn']`: parent chain as in `lookupJ`, and the final
component must be a present dict key (`KeyError` otherwise). -/
def delJ : Json → List String → Option Json
  | .obj fs, [k] => if containsKey fs k then some (.obj (eraseKV fs k)) else none
  | .obj fs, k :: k2 :: rest =>
      match getKV fs k with
      | some child => (delJ child (k2 :: rest)).map (fun c => Json.obj (replaceKV fs k c))
      | none => none
  | _, _ => none

/-- Python `sub in s` on strings (substring containment). -/
def strContains (s sub : String) : Bool :=
  (List.range (s.toList.length + 1)).any (fun i =>
    ((s.toList.drop i).take sub.toList.length) == sub.toList)

/-- Python `key in container` for the containers a payload can hold:
key membership on a dict, element equality on a list, substring containment
on a string; `TypeError` (`none`) on anything else. -/
def membJ (container : Json) (k : String) : Option Bool :=
  match container with
  | .obj fs => some (containsKey fs k)
  | .arr xs => some (xs.any (fun x => x == Json.str k))
  | .str s => some (strContains s k)
  | _ => none

/-- One rename block of a generated correction script, with the exact
guard/assign/delete and `except (KeyError, TypeError): pass` semantics
described above.  `w` and `c` are the already-split incorrect and correct
field paths. -/
def applyRule (d : Json) (w c : List String) : Json :=
  match w.getLast? with
  | none => d
  | some wl =>
      match lookupJ d w.dropLast with
      | none => d
      | some container =>
          match membJ container wl with
          | some true =>
              match lookupJ d w with
              | none => d
              | some v =>
                  match setJ d c v with
                  | none => d
                  | some d1 =>
                      match delJ d1 w with
                      | none => d1
                      | some d2 => d2
          | _ => d

/-- `fix_data(data)` of the script generated for the candidate list
`cands`: the rename blocks run in the order of the list, each splitting its
dotted paths on `"."` as `generate_fix_data_script` does. -/
def fix_data (cands : List (String × String × Nat)) (d : Json) : Json :=
  cands.foldl (fun d c => applyRule d (splitDot c.1) (splitDot c.2.1)) d

/-- `generate_fix_data_script(cands, path)` persists a script whose payload
transformation is `fix_data cands`; the model identifies the stored artifact
with that transformation. -/
def generate_fix_data_script (cands : List (String × String × Nat)) : Json → Json :=
  fix_data cands

/-- `pathPre p q`: the component list `p` is a prefix of (or equal to) the
component list `q` — the relation "field path `p` lies on the subscript
chain of field path `q`". -/
def pathPre : List String → List String → Bool
  | [], _ => true
  | _ :: _, [] => false
  | a :: as, b :: bs => a == b && pathPre as bs

theorem sizeOf_getD_lt_obj (fs : List (String × Json)) (k : String) :
    sizeOf (getD fs k) < 1 + sizeOf fs := by
  unfold getD
  cases hf : getKV fs k with
  | none =>
      simp only [Option.getD_none]
      have h1 : sizeOf Json.null = 1 := by simp
      have h2 : 1 ≤ sizeOf fs := by cases fs <;> simp <;> omega
      omega
  | some v => simpa using sizeOf_getKV_lt hf

/-- Functional update of the value found at the end of an existing
subscript chain (a proof-side helper used to characterize what one rename
block of a generated script does to the payload tree; it creates nothing:
on a broken chain it changes nothing). -/
def updAt : Json → List String → Json → Json
  | _, [], new => new
  | .obj fs, k :: rest, new => .obj (replaceKV fs k (updAt (getD fs k) rest new))
  | d, _ :: _, _ => d
termination_by d _ _ => sizeOf d
decreasing_by
  have := sizeOf_getD_lt_obj fs k
  simp only [Json.obj.sizeOf_spec]
  omega

/-- The guard of a rename block holds with a dict container: the parent
chain of the wrong path reaches a dict that has the wrong field as a key
(exactly the situation in which the block mutates the payload). -/
def guardB (d : Json) (p : List String) (wl : String) : Prop :=
  ∃ fs, lookupJ d p = some (Json.obj fs) ∧ containsKey fs wl = true

/-! ### The convergence loop

`apply_iterative_fixes` in `src/mitm/intercept.py` (the same loop is
inlined in the `response` hook):

  - `generate_fix_data_script(sim0, file_path)` and one `fix_api` run,
  - then `while compare_json(schema, json.loads(fixed))["similarity"] != []:`
    regenerate the script from the cumulative candidate list, re-run
    `fix_api` on the ORIGINAL request content, and append the new
    similarities.

The source loop has no iteration cap; `fuel` bounds the number of
iterations of the model, and a `none` result means the source loop has not
terminated within `fuel` iterations.  The second component counts the
`generate_fix_data_script` calls (artifact writes) performed.  `fix_api` is
modeled by its success path: running the stored script is applying
`fix_data` of the candidate list the script was generated from. -/
def loopAuxW (schema clientReq : Json) (sim0 : List (String × String × Nat)) :
    Nat → Json → List (String × String × Nat) → Option Json × Nat
  | 0, _, _ => (none, 0)
  | fuel + 1, fixed, similarity =>
      if simOf schema fixed = [] then (some fixed, 0)
      else
        let fixed2 := fix_data (sim0 ++ similarity) clientReq
        let r := loopAuxW schema clientReq sim0 fuel fixed2 (similarity ++ simOf schema fixed2)
        (r.1, r.2 + 1)

/-- `apply_iterative_fixes(client_req_content, endpoint_schema, ...)`:
initial synthesis + fix, then the while loop.  Returns the corrected
payload (`none` when the source's unbounded loop does not terminate within
`fuel` iterations) together with the number of synthesis calls made. -/
def apply_iterative_fixes (schema clientReq : Json) (fuel : Nat) : Option Json × Nat :=
  let sim0 := simOf schema clientReq
  let fixed0 := fix_data sim0 clientReq
  let r := loopAuxW schema clientReq sim0 fuel fixed0 (simOf schema fixed0)
  (r.1, r.2 + 1)

/-! ### The correction executor -/

/-- Outcome of the `subprocess.run(["python3", file_path, api], timeout=5)`
call inside `fix_api`: normal completion with an exit code and captured
stdout, a `subprocess.TimeoutExpired`, or any other raised exception. -/
inductive ExecOutcome where
  | completed (returncode : Int) (stdout : String)
  | timedOut
  | raised
  deriving DecidableEq, Repr

/-- `fix_api(api, file_path)` from `src/mitm/utils.py`: if the script file
exists, run it; on a non-zero exit code, a timeout, or an exception return
the original `api` string; otherwise return the captured stdout unchecked.
When the file does not exist the original string is returned as well. -/
def fix_api (api : String) (scriptExists : Bool) (outcome : ExecOutcome) : String :=
  if scriptExists then
    match outcome with
    | .completed rc out => if rc ≠ 0 then api else out
    | .timedOut => api
    | .raised => api
  else api

/-! ### The fingerprint (cache key) of `get_file_path` -/

mutual

/-- `extract_all_fields(data, prefix)` from `src/mitm/utils.py`: every dict
key becomes `prefix_key` (or `key` at the top), recursing into dict/list
values; list items contribute no name of their own but are recursed into
under `prefix_i`.  The source iterates `sorted(data.items())`; since the
only consumer sorts and deduplicates the combined result, the traversal
order does not affect `str_key`, and the model traverses in insertion
order. -/
def extract_all_fields : Json → String → List String
  | .obj fs, pre => extractFieldsObj fs pre
  | .arr xs, pre => extractFieldsArr xs pre 0
  | _, _ => []

def extractFieldsObj : List (String × Json) → String → List String
  | [], _ => []
  | (k, v) :: rest, pre =>
      let fieldName := if pre = "" then k else pre ++ "_" ++ k
      (fieldName :: (match v with
        | .obj _ => extract_all_fields v fieldName
        | .arr _ => extract_all_fields v fieldName
        | _ => [])) ++ extractFieldsObj rest pre

def extractFieldsArr : List Json → String → Nat → List String
  | [], _, _ => []
  | x :: rest, pre, i =>
      (match x with
        | .obj _ => extract_all_fields x (if pre = "" then toString i else pre ++ "_" ++ toString i)
        | .arr _ => extract_all_fields x (if pre = "" then toString i else pre ++ "_" ++ toString i)
        | _ => []) ++ extractFieldsArr rest pre (i + 1)

end

/-- First-occurrence deduplication (the `set(...)` of the source; the order
is irrelevant because the result is sorted immediately afterwards). -/
def dedupFirst (l : List String) : List String :=
  go l []
where
  go : List String → List String → List String
    | [], _ => []
    | x :: xs, seen => if seen.contains x then go xs seen else x :: go xs (x :: seen)

def insertAscStr (x : String) : List String → List String
  | [] => [x]
  | y :: ys => if x ≤ y then x :: y :: ys else y :: insertAscStr x ys

/-- `sorted(...)` on strings (code-point lexicographic, ascending). -/
def sortAscStr : List String → List String
  | [] => []
  | x :: xs => insertAscStr x (sortAscStr xs)

def joinUnderscore : List String → String
  | [] => ""
  | [x] => x
  | x :: xs => x ++ "_" ++ joinUnderscore xs

/-- `str_key` of `get_file_path`:
`"_".join(sorted(set(client_fields + backend_fields)))`. -/
def str_key_of (client_req backend_json : Json) : String :=
  joinUnderscore (sortAscStr (dedupFirst
    (extract_all_fields client_req "" ++ extract_all_fields backend_json "")))

/-- The part of an intercepted request that `get_file_path` can see. -/
structure FlowReq where
  url : String
  method : String
  content : Option Json
  deriving Repr

/-- `get_file_path(flow, backend_json)` from `src/mitm/utils.py`: the cache
key of a correction script.  The source hashes `str_key` with `hashlib.md5`
and returns `api_correction_scripts/<hex digest>.py`; since the digest is a
function of `str_key` alone, the model keys the file name by `str_key`
itself — two calls agree on the modeled path if and only if the source
computes the same md5 input (hence the same digest and the same path, up to
md5 collisions).  On any exception (request body not valid JSON) the source
falls back to a name derived from the request url. -/
def get_file_path (flow : FlowReq) (backend_json : Json) : String :=
  match flow.content with
  | some client_req => "api_correction_scripts/" ++ str_key_of client_req backend_json ++ ".py"
  | none => "api_correction_scripts/fallback_" ++ flow.url ++ ".py"

/-! ### The audit log -/

/-- Python `existing_data.update(data)`. -/
def dict_update (old newData : List (String × Json)) : List (String × Json) :=
  newData.foldl (fun acc kv => insertKV acc kv.1 kv.2) old

/-- `save_to_json_file(data, folder, file_name)` from `src/mitm/utils.py`,
modeled at the level of the stored mapping: when the log file exists, has
content and parses as JSON the new entries are merged into the parsed
mapping (`existing = some ...`); when it is missing, empty, or invalid JSON
the new data is written on its own (`existing = none`).  The value returned
is the mapping written back to the file (the source serializes it with
`sort_keys=True`, which changes the textual order but not the mapping). -/
def save_to_json_file (data : List (String × Json))
    (existing : Option (List (String × Json))) : List (String × Json) :=
  match existing with
  | some e => dict_update e data
  | none => data

/-! ### The response hook -/

/-- The fixed failure-status set of the `response` hook in
`src/mitm/intercept.py`. -/
def failure_status_codes : List Nat := [400, 401, 403, 404, 429, 500, 503]

/-- Outcome of the bounded-timeout `httpx` replay of the corrected request:
a response with a status code and content, or an `httpx.TimeoutException`. -/
inductive ReplayOutcome where
  | success (statusCode : Nat) (content : String)
  | timedOut
  deriving DecidableEq, Repr

/-- The two fields of the proxied response that the hook may rewrite. -/
structure ProxyResponse where
  statusCode : Nat
  content : String
  deriving DecidableEq, Repr

/-- The `response(flow)` hook of `src/mitm/intercept.py`, as a function of
the data it inspects: the proxied response status, the current request
content (`flow.request.content` truthiness), the parse of the original
client request body (`none` models a `json.loads` failure, whose exception
is caught by the outer handler, leaving the response untouched), the
endpoint schema, the replay outcome and the proxied response.  The audit
logging and the script-file write do not touch the response and are
modeled by `apply_iterative_fixes` only through the corrected payload.
A `none` result means the hook never returns (the source's unbounded
correction loop did not terminate within `fuel` iterations). -/
def response_hook (respStatus : Nat) (reqContent : String) (origReq : Option Json)
    (schema : Json) (fuel : Nat) (replay : ReplayOutcome) (resp : ProxyResponse) :
    Option ProxyResponse :=
  if respStatus ∈ failure_status_codes ∧ reqContent ≠ "" then
    match origReq with
    | none => some resp
    | some req =>
        match (apply_iterative_fixes schema req fuel).1 with
        | none => none
        | some _fixed =>
            match replay with
            | .success c s => some ⟨c, s⟩
            | .timedOut => some resp
  else some resp

/-! ## Theorems -/

/-! ### C3: the diff is empty iff the structures match -/

theorem compareFieldsA_eq_nil_iff (fa fb : List (String × Json)) (path : String)
    (ih : ∀ kv ∈ fa, ∀ p,
      (compare_json_keys kv.2 (getD fb kv.1) p = [] ↔ structMatch kv.2 (getD fb kv.1) = true)) :
    (compareFieldsA fa fb path = [] ↔ structMatchFields fa fb = true) := by
  induction fa with
  | nil => simp [compareFieldsA, structMatchFields]
  | cons kv rest ihr =>
      obtain ⟨k, v⟩ := kv
      have h1 := ih (k, v) (by simp) (childPath path k)
      have h2 := ihr (fun kv hkv p => ih kv (by simp [hkv]) p)
      by_cases hc : containsKey fb k
      · simp [compareFieldsA, structMatchFields, hc, h1, h2]
      · simp [compareFieldsA, structMatchFields, hc]

theorem compare_nil_iff_aux : ∀ (n : Nat) (a b : Json) (path : String), sizeOf a ≤ n →
    (compare_json_keys a b path = [] ↔ structMatch a b = true) := by
  intro n
  induction n with
  | zero =>
      intro a b path h
      exfalso
      cases a <;> simp at h
  | succ n ih =>
      intro a b path h
      cases a with
      | obj fa =>
          cases b with
          | obj fb =>
              have hfields := compareFieldsA_eq_nil_iff fa fb path (fun kv hkv p =>
                ih kv.2 (getD fb kv.1) p (by
                  have h1 : sizeOf kv < sizeOf fa := List.sizeOf_lt_of_mem hkv
                  have h2 : sizeOf kv.2 < sizeOf kv := by cases kv with | mk x y => simp
                  have h3 : sizeOf (Json.obj fa) = 1 + sizeOf fa := by simp
                  omega))
              have hFM : ((keysOf fb).filterMap (fun k =>
                  if containsKey fa k then none
                  else some (childPath path k, DiffV.missingInA)) = []) ↔
                  ((keysOf fb).all (fun k => containsKey fa k) = true) := by
                rw [List.filterMap_eq_nil_iff, List.all_eq_true]
                constructor
                · intro hh k hk
                  have := hh k hk
                  by_cases hck : containsKey fa k <;> simp_all
                · intro hh k hk
                  have := hh k hk
                  by_cases hck : containsKey fa k <;> simp_all
              simp only [compare_json_keys, structMatch, List.append_eq_nil,
                Bool.and_eq_true, hfields, hFM]
          | null => simp [compare_json_keys, structMatch, typeName]
          | bool y => simp [compare_json_keys, structMatch, typeName]
          | num y => simp [compare_json_keys, structMatch, typeName]
          | str y => simp [compare_json_keys, structMatch, typeName]
          | arr bs => cases bs <;> simp [compare_json_keys, structMatch, typeName]
      | arr as =>
          cases b with
          | arr bs =>
              cases as with
              | nil => cases bs <;> simp [compare_json_keys, structMatch]
              | cons x xs =>
                  cases bs with
                  | nil => simp [compare_json_keys, structMatch]
                  | cons y ys =>
                      have hx := ih x y (path ++ "[0]") (by
                        have h1 : sizeOf (Json.arr (x :: xs)) = 1 + sizeOf (x :: xs) := by simp
                        have h2 : sizeOf x < sizeOf (x :: xs) := by simp; omega
                        omega)
                      simpa [compare_json_keys, structMatch] using hx
          | null => cases as <;> simp [compare_json_keys, structMatch, typeName]
          | bool y => cases as <;> simp [compare_json_keys, structMatch, typeName]
          | num y => cases as <;> simp [compare_json_keys, structMatch, typeName]
          | str y => cases as <;> simp [compare_json_keys, structMatch, typeName]
          | obj fb => cases as <;> simp [compare_json_keys, structMatch, typeName]
      | null => cases b <;> simp [compare_json_keys, structMatch, typeName]
      | bool x => cases b <;> simp [compare_json_keys, structMatch, typeName]
      | num x => cases b <;> simp [compare_json_keys, structMatch, typeName]
      | str x => cases b <;> simp [compare_json_keys, structMatch, typeName]

/-- C3: for every schema `S` and payload `P`, the recursive schema diff
`diff(S, P)` (that is, `compare_json_keys S P ""`) returns an empty map if
and only if `P` and `S` have identical key structure and matching leaf
runtime types at every path, where for sequences only element `[0]` of each
side is compared as a structural sample (`structMatch`, written from the
specification's words). -/
theorem diff_empty_iff_structMatch (schema payload : Json) :
    compare_json_keys schema payload "" = [] ↔ structMatch schema payload = true :=
  compare_nil_iff_aux (sizeOf schema) schema payload "" (Nat.le_refl _)

/-! ### Lemmas about the fuzzy matcher (`bestFor`, the stable sort) -/

/-- The score-descending ordering the output of `finall_boss_improved` is
sorted by. -/
def scoreGE (x y : String × String × Nat) : Prop := y.2.2 ≤ x.2.2

theorem mem_insertDesc {x y : String × String × Nat} {l : List (String × String × Nat)} :
    x ∈ insertDesc y l ↔ x = y ∨ x ∈ l := by
  induction l with
  | nil => simp [insertDesc]
  | cons z zs ih =>
      by_cases h : y.2.2 ≥ z.2.2
      · simp [insertDesc, h]
      · simp only [insertDesc, if_neg h, List.mem_cons, ih]
        tauto

theorem mem_sortDescByScore {x : String × String × Nat} {l : List (String × String × Nat)} :
    x ∈ sortDescByScore l ↔ x ∈ l := by
  induction l with
  | nil => simp [sortDescByScore]
  | cons z zs ih => simp [sortDescByScore, mem_insertDesc, ih]

theorem pairwise_insertDesc {x : String × String × Nat} {l : List (String × String × Nat)}
    (h : List.Pairwise scoreGE l) : List.Pairwise scoreGE (insertDesc x l) := by
  induction l with
  | nil => simp [insertDesc, List.pairwise_singleton]
  | cons y ys ih =>
      by_cases hxy : x.2.2 ≥ y.2.2
      · rw [insertDesc, if_pos hxy]
        constructor
        · intro z hz
          rcases List.mem_cons.mp hz with hzy | hzys
          · subst hzy; exact hxy
          · have hyz : scoreGE y z := (List.pairwise_cons.mp h).1 z hzys
            exact Nat.le_trans hyz hxy
        · exact h
      · rw [insertDesc, if_neg hxy]
        constructor
        · intro z hz
          rcases mem_insertDesc.mp hz with hzx | hzys
          · subst hzx; exact Nat.le_of_lt (Nat.lt_of_not_le hxy)
          · exact (List.pairwise_cons.mp h).1 z hzys
        · exact ih (List.pairwise_cons.mp h).2

theorem sorted_sortDescByScore (l : List (String × String × Nat)) :
    List.Pairwise scoreGE (sortDescByScore l) := by
  induction l with
  | nil => simp [sortDescByScore]
  | cons x xs ih => exact pairwise_insertDesc ih

/-- One step of the inner scan of `finall_boss_improved`. -/
def bestStep (aPath aField : String) (st : Option String × Nat) (bkv : String × DiffV) :
    Option String × Nat :=
  if bkv.2 = DiffV.missingInB then
    if basePathOf bkv.1 = aPath then
      if compare_words aField (fieldNameOf bkv.1) > st.2 then (some bkv.1, compare_words aField (fieldNameOf bkv.1)) else st
    else st
  else st

theorem bestFor_eq_foldl (obj : List (String × DiffV)) (aPath aField : String) :
    bestFor obj aPath aField = obj.foldl (bestStep aPath aField) (none, 0) := by
  unfold bestFor bestStep
  rfl

/-- If every same-parent `Missing in B` candidate scores `0`, the inner scan
of `finall_boss_improved` selects nothing (the comparison against the
running best starts at `0` and is strict). -/
theorem bestFor_none_of_all_zero (obj : List (String × DiffV)) (aPath aField : String)
    (hz : ∀ bkv ∈ obj, bkv.2 = DiffV.missingInB → basePathOf bkv.1 = aPath →
      compare_words aField (fieldNameOf bkv.1) = 0) :
    bestFor obj aPath aField = (none, 0) := by
  rw [bestFor_eq_foldl]
  induction obj with
  | nil => rfl
  | cons bkv rest ih =>
      have hstep : bestStep aPath aField (none, 0) bkv = (none, 0) := by
        unfold bestStep
        by_cases h1 : bkv.2 = DiffV.missingInB
        · by_cases h2 : basePathOf bkv.1 = aPath
          · have h0 := hz bkv (by simp) h1 h2
            simp [h1, h2, h0]
          · simp [h1, h2]
        · simp [h1]
      rw [List.foldl_cons, hstep]
      exact ih (fun b hb => hz b (by simp [hb]))

/-- Full characterization of the inner scan: either no candidate is
selected and every same-parent `Missing in B` entry scores `0`, or the
selected candidate is the first-seen entry attaining the (positive) maximal
score: every earlier same-parent candidate scores strictly less and every
later one at most as much. -/
theorem bestFor_spec (obj : List (String × DiffV)) (aPath aField : String) :
    (bestFor obj aPath aField = (none, 0) ∧
      ∀ bkv ∈ obj, bkv.2 = DiffV.missingInB → basePathOf bkv.1 = aPath →
        compare_words aField (fieldNameOf bkv.1) = 0) ∨
    (∃ bk s l1 l2, bestFor obj aPath aField = (some bk, s) ∧ 0 < s ∧
      obj = l1 ++ (bk, DiffV.missingInB) :: l2 ∧ basePathOf bk = aPath ∧
      s = compare_words aField (fieldNameOf bk) ∧
      (∀ bkv ∈ l1, bkv.2 = DiffV.missingInB → basePathOf bkv.1 = aPath →
        compare_words aField (fieldNameOf bkv.1) < s) ∧
      (∀ bkv ∈ l2, bkv.2 = DiffV.missingInB → basePathOf bkv.1 = aPath →
        compare_words aField (fieldNameOf bkv.1) ≤ s)) := by
  rw [bestFor_eq_foldl]
  induction obj using List.reverseRecOn with
  | nil => left; exact ⟨rfl, by simp⟩
  | append_singleton l x ih =>
      rw [List.foldl_append, List.foldl_cons, List.foldl_nil]
      rcases ih with ⟨hst, hall⟩ | ⟨bk, s, l1, l2, hst, hpos, hdec, hpath, hscore, hless, hle⟩
      · rw [hst]
        unfold bestStep
        by_cases h1 : x.2 = DiffV.missingInB
        · by_cases h2 : basePathOf x.1 = aPath
          · by_cases h3 : compare_words aField (fieldNameOf x.1) > 0
            · right
              refine ⟨x.1, compare_words aField (fieldNameOf x.1), l, [], ?_, h3, ?_, h2, rfl, ?_, ?_⟩
              · simp [h1, h2, h3]
              · cases x with
                | mk a b => simp only at h1; rw [h1]
              · intro bkv hb hb1 hb2
                have h0 := hall bkv hb hb1 hb2
                omega
              · intro bkv hb
                simp at hb
            · left
              constructor
              · simp [h1, h2, h3]
              · intro bkv hb hb1 hb2
                rcases List.mem_append.mp hb with hbl | hbx
                · exact hall bkv hbl hb1 hb2
                · have hbx2 : bkv = x := by simpa using hbx
                  subst hbx2
                  omega
          · left
            refine ⟨by simp [h1, h2], ?_⟩
            intro bkv hb hb1 hb2
            rcases List.mem_append.mp hb with hbl | hbx
            · exact hall bkv hbl hb1 hb2
            · have hbx2 : bkv = x := by simpa using hbx
              subst hbx2
              exact absurd hb2 h2
        · left
          refine ⟨by simp [h1], ?_⟩
          intro bkv hb hb1 hb2
          rcases List.mem_append.mp hb with hbl | hbx
          · exact hall bkv hbl hb1 hb2
          · have hbx2 : bkv = x := by simpa using hbx
            subst hbx2
            exact absurd hb1 h1
      · rw [hst]
        unfold bestStep
        by_cases h1 : x.2 = DiffV.missingInB
        · by_cases h2 : basePathOf x.1 = aPath
          · by_cases h3 : compare_words aField (fieldNameOf x.1) > s
            · right
              refine ⟨x.1, compare_words aField (fieldNameOf x.1), l, [], ?_, by omega, ?_, h2, rfl, ?_, ?_⟩
              · simp [h1, h2, h3]
              · cases x with
                | mk a b => simp only at h1; rw [h1]
              · intro bkv hb hb1 hb2
                rw [hdec] at hb
                rcases List.mem_append.mp hb with hbl | hbc
                · have := hless bkv hbl hb1 hb2
                  omega
                · rcases List.mem_cons.mp hbc with hbk | hbl2
                  · subst hbk
                    simp only at hb1 hb2 ⊢
                    omega
                  · have := hle bkv hbl2 hb1 hb2
                    omega
              · intro bkv hb
                simp at hb
            · right
              refine ⟨bk, s, l1, l2 ++ [x], ?_, hpos, ?_, hpath, hscore, hless, ?_⟩
              · simp [h1, h2, h3]
              · rw [hdec]; simp
              · intro bkv hb hb1 hb2
                rcases List.mem_append.mp hb with hbl | hbx
                · exact hle bkv hbl hb1 hb2
                · have hbx2 : bkv = x := by simpa using hbx
                  subst hbx2
                  omega
          · right
            refine ⟨bk, s, l1, l2 ++ [x], by simp [h1, h2], hpos, ?_, hpath, hscore, hless, ?_⟩
            · rw [hdec]; simp
            · intro bkv hb hb1 hb2
              rcases List.mem_append.mp hb with hbl | hbx
              · exact hle bkv hbl hb1 hb2
              · have hbx2 : bkv = x := by simpa using hbx
                subst hbx2
                exact absurd hb2 h2
        · right
          refine ⟨bk, s, l1, l2 ++ [x], by simp [h1], hpos, ?_, hpath, hscore, hless, ?_⟩
          · rw [hdec]; simp
          · intro bkv hb hb1 hb2
            rcases List.mem_append.mp hb with hbl | hbx
            · exact hle bkv hbl hb1 hb2
            · have hbx2 : bkv = x := by simpa using hbx
              subst hbx2
              exact absurd hb1 h1

theorem perm_insertDesc (x : String × String × Nat) (l : List (String × String × Nat)) :
    (insertDesc x l).Perm (x :: l) := by
  induction l with
  | nil => exact List.Perm.refl _
  | cons y ys ih =>
      by_cases h : x.2.2 ≥ y.2.2
      · rw [insertDesc, if_pos h]
      · rw [insertDesc, if_neg h]
        exact (List.Perm.cons y ih).trans (List.Perm.swap x y ys)

theorem perm_sortDescByScore (l : List (String × String × Nat)) :
    (sortDescByScore l).Perm l := by
  induction l with
  | nil => exact List.Perm.refl _
  | cons x xs ih =>
      exact (perm_insertDesc x (sortDescByScore xs)).trans (List.Perm.cons x ih)

theorem candidateFor_length_le (obj : List (String × DiffV)) (akv : String × DiffV) :
    (candidateFor obj akv).length ≤ 1 := by
  unfold candidateFor
  by_cases h : akv.2 = DiffV.missingInA
  · rw [if_pos h]
    rcases hbf : bestFor obj (basePathOf akv.1) (fieldNameOf akv.1) with ⟨opt, s⟩
    cases opt <;> simp
  · rw [if_neg h]
    simp

theorem mem_candidateFor {obj : List (String × DiffV)} {akv : String × DiffV}
    {t : String × String × Nat} (h : t ∈ candidateFor obj akv) :
    t.1 = akv.1 ∧ akv.2 = DiffV.missingInA ∧
    ∃ bk s, bestFor obj (basePathOf akv.1) (fieldNameOf akv.1) = (some bk, s) ∧
      t = (akv.1, bk, s) := by
  unfold candidateFor at h
  by_cases ha : akv.2 = DiffV.missingInA
  · rw [if_pos ha] at h
    rcases hbf : bestFor obj (basePathOf akv.1) (fieldNameOf akv.1) with ⟨opt, s⟩
    rw [hbf] at h
    cases opt with
    | none => simp at h
    | some bk =>
        have ht : t = (akv.1, bk, s) := by simpa using h
        exact ⟨by rw [ht], ha, bk, s, by simp [hbf], ht⟩
  · rw [if_neg ha] at h
    simp at h

/-- C10: for every `Missing in A` field of the diff map, if every
same-parent `Missing in B` candidate has a similarity score of exactly `0`,
the fuzzy matcher emits no rename candidate for that field: the best-score
comparison starts from `0` and is strict, so zero-similarity candidates are
never selected even when they exist at the same parent path. -/
theorem matcher_skips_zero_score_fields (obj : List (String × DiffV)) (akey : String)
    (hz : ∀ bkv ∈ obj, bkv.2 = DiffV.missingInB → basePathOf bkv.1 = basePathOf akey →
      compare_words (fieldNameOf akey) (fieldNameOf bkv.1) = 0) :
    ∀ t ∈ finall_boss_improved obj, t.1 ≠ akey := by
  intro t ht heq
  unfold finall_boss_improved at ht
  rw [mem_sortDescByScore, List.mem_flatMap] at ht
  obtain ⟨akv, hakv, htf⟩ := ht
  obtain ⟨ht1, hta, bk, s, hbf, htt⟩ := mem_candidateFor htf
  have hkey : akv.1 = akey := by rw [← ht1, heq]
  rw [hkey] at hbf
  rw [bestFor_none_of_all_zero obj (basePathOf akey) (fieldNameOf akey) hz] at hbf
  simp at hbf

/-- C10 witness: the diff map contains a same-parent `Missing in B`
candidate (`name`) for the wrong field `b`, but its similarity to `b` is
`0`, so the matcher proposes nothing for `b`. -/
theorem matcher_skips_zero_score_fields_witness :
    ("b", "name", 0) ∉
      finall_boss_improved [("name", DiffV.missingInB), ("b", DiffV.missingInA)] :=
  fun hmem =>
    matcher_skips_zero_score_fields
      [("name", DiffV.missingInB), ("b", DiffV.missingInA)] "b"
      (by decide) ("b", "name", 0) hmem rfl

theorem filter_flatMap_candidateFor_nil {obj rest : List (String × DiffV)} {w : String}
    (hw : ∀ akv ∈ rest, akv.1 ≠ w) :
    (rest.flatMap (candidateFor obj)).filter (fun t => t.1 = w) = [] := by
  rw [List.filter_eq_nil_iff]
  intro t ht
  rw [List.mem_flatMap] at ht
  obtain ⟨akv, hakv, htf⟩ := ht
  have h1 := (mem_candidateFor htf).1
  have h2 := hw akv hakv
  simp only [decide_eq_true_eq]
  rw [h1]
  exact h2

theorem count_flatMap_candidateFor_le (obj : List (String × DiffV)) (w : String) :
    ∀ (l : List (String × DiffV)), (l.map Prod.fst).Nodup →
      ((l.flatMap (candidateFor obj)).filter (fun t => t.1 = w)).length ≤ 1 := by
  intro l
  induction l with
  | nil => intro _; simp
  | cons akv rest ih =>
      intro hnd
      rw [List.flatMap_cons, List.filter_append, List.length_append]
      have hnd2 : (akv.1 :: rest.map Prod.fst).Nodup := by simpa using hnd
      rcases List.nodup_cons.mp hnd2 with ⟨hnin, hndr⟩
      by_cases hkey : akv.1 = w
      · have hrest : (rest.flatMap (candidateFor obj)).filter (fun t => t.1 = w) = [] := by
          refine filter_flatMap_candidateFor_nil ?_
          intro akv2 hakv2 heq2
          exact hnin (by
            rw [hkey, ← heq2]
            exact List.mem_map.mpr ⟨akv2, hakv2, rfl⟩)
        rw [hrest]
        have h1 : ((candidateFor obj akv).filter (fun t => t.1 = w)).length ≤
            (candidateFor obj akv).length := List.length_filter_le _ _
        have h2 := candidateFor_length_le obj akv
        simp only [List.length_nil]
        omega
      · have hhead : (candidateFor obj akv).filter (fun t => t.1 = w) = [] := by
          rw [List.filter_eq_nil_iff]
          intro t ht
          have h1 := (mem_candidateFor ht).1
          simp only [decide_eq_true_eq]
          rw [h1]
          exact hkey
        rw [hhead]
        have := ih hndr
        simp only [List.length_nil]
        omega

/-- C5: for every diff map with distinct keys, the output of the fuzzy
field matcher satisfies:
(a) it is sorted by score, highest first;
(b) every returned triple `(wrongPath, correctPath, score)` pairs a
`Missing in A` field of the map with a same-parent `Missing in B` field
whose (positive) similarity score is maximal among the same-parent
candidates, ties broken by first-seen order (all earlier same-parent
candidates score strictly less, all later ones at most as much);
(c) each wrong field contributes at most one triple;
(d) a wrong field with no same-parent `Missing in B` candidate contributes
no triple. -/
theorem matcher_best_candidate_spec (obj : List (String × DiffV))
    (hnd : (obj.map Prod.fst).Nodup) :
    List.Pairwise scoreGE (finall_boss_improved obj) ∧
    (∀ t ∈ finall_boss_improved obj, (t.1, DiffV.missingInA) ∈ obj ∧
      ∃ l1 l2, obj = l1 ++ (t.2.1, DiffV.missingInB) :: l2 ∧
        basePathOf t.2.1 = basePathOf t.1 ∧
        t.2.2 = compare_words (fieldNameOf t.1) (fieldNameOf t.2.1) ∧ 0 < t.2.2 ∧
        (∀ bkv ∈ l1, bkv.2 = DiffV.missingInB → basePathOf bkv.1 = basePathOf t.1 →
          compare_words (fieldNameOf t.1) (fieldNameOf bkv.1) < t.2.2) ∧
        (∀ bkv ∈ l2, bkv.2 = DiffV.missingInB → basePathOf bkv.1 = basePathOf t.1 →
          compare_words (fieldNameOf t.1) (fieldNameOf bkv.1) ≤ t.2.2)) ∧
    (∀ w, ((finall_boss_improved obj).filter (fun t => t.1 = w)).length ≤ 1) ∧
    (∀ akv ∈ obj, akv.2 = DiffV.missingInA →
      (∀ bkv ∈ obj, bkv.2 = DiffV.missingInB → basePathOf bkv.1 ≠ basePathOf akv.1) →
      ∀ t ∈ finall_boss_improved obj, t.1 ≠ akv.1) := by
  refine ⟨sorted_sortDescByScore _, ?_, ?_, ?_⟩
  · intro t ht
    unfold finall_boss_improved at ht
    rw [mem_sortDescByScore, List.mem_flatMap] at ht
    obtain ⟨akv, hakv, htf⟩ := ht
    obtain ⟨ht1, hta, bk, s, hbf, htt⟩ := mem_candidateFor htf
    rcases bestFor_spec obj (basePathOf akv.1) (fieldNameOf akv.1) with
      ⟨hnone, _⟩ | ⟨bk2, s2, l1, l2, hsome, hpos, hdec, hpath, hscore, hless, hle⟩
    · rw [hnone] at hbf; simp at hbf
    · rw [hsome] at hbf
      rw [Prod.mk.injEq] at hbf
      have hbk : bk2 = bk := by simpa using hbf.1
      have hs : s2 = s := hbf.2
      subst hbk hs
      constructor
      · have : akv = (akv.1, DiffV.missingInA) := by
          cases akv with
          | mk a d => simp only at hta; rw [hta]
        rw [htt, ← this]
        exact hakv
      · refine ⟨l1, l2, ?_, ?_, ?_, ?_, ?_, ?_⟩ <;> rw [htt]
        · exact hdec
        · simpa using hpath
        · simpa using hscore
        · simpa using hpos
        · intro bkv hb hb1 hb2
          exact hless bkv hb hb1 (by simpa using hb2)
        · intro bkv hb hb1 hb2
          exact hle bkv hb hb1 (by simpa using hb2)
  · intro w
    unfold finall_boss_improved
    have hperm := (perm_sortDescByScore (obj.flatMap (candidateFor obj))).filter
      (fun t => t.1 = w)
    rw [hperm.length_eq]
    exact count_flatMap_candidateFor_le obj w obj hnd
  · intro akv hakv hma hnocand t ht heq
    unfold finall_boss_improved at ht
    rw [mem_sortDescByScore, List.mem_flatMap] at ht
    obtain ⟨akv2, hakv2, htf⟩ := ht
    obtain ⟨ht1, hta2, bk, s, hbf, htt⟩ := mem_candidateFor htf
    rcases bestFor_spec obj (basePathOf akv2.1) (fieldNameOf akv2.1) with
      ⟨hnone, _⟩ | ⟨bk2, s2, l1, l2, hsome, hpos, hdec, hpath, hscore, hless, hle⟩
    · rw [hnone] at hbf; simp at hbf
    · rw [hsome] at hbf
      rw [Prod.mk.injEq] at hbf
      have hbk : bk2 = bk := by simpa using hbf.1
      subst hbk
      have hmem : (bk2, DiffV.missingInB) ∈ obj := by
        rw [hdec]
        simp
      have h1 : akv2.1 = akv.1 := by rw [← ht1, heq]
      have := hnocand (bk2, DiffV.missingInB) hmem rfl
      rw [← h1] at this
      exact this hpath

/-- C5 witness: the matcher output for the end-to-end example diff
(schema fields `name`, `message`, `source` missing from the payload; wrong
payload fields `nme`, `messages`, `sourc`) is sorted by score descending. -/
theorem matcher_best_candidate_spec_witness :
    List.Pairwise scoreGE (finall_boss_improved
      [("name", DiffV.missingInB), ("message", DiffV.missingInB),
       ("source", DiffV.missingInB), ("nme", DiffV.missingInA),
       ("messages", DiffV.missingInA), ("sourc", DiffV.missingInA)]) :=
  (matcher_best_candidate_spec
    [("name", DiffV.missingInB), ("message", DiffV.missingInB),
     ("source", DiffV.missingInB), ("nme", DiffV.missingInA),
     ("messages", DiffV.missingInA), ("sourc", DiffV.missingInA)] (by decide)).1

/-! ### C9: audit-log writes preserve entries under other routes -/

theorem getKV_replaceKV_ne (fs : List (String × Json)) (k k2 : String) (v : Json)
    (h : k2 ≠ k) : getKV (replaceKV fs k v) k2 = getKV fs k2 := by
  induction fs with
  | nil => rfl
  | cons kv rest ih =>
      by_cases hk : kv.1 == k
      · have hk1 : kv.1 = k := by simpa using hk
        unfold replaceKV getKV
        simp only [List.map_cons, hk, if_pos]
        rw [List.find?_cons, List.find?_cons]
        have h1 : ((k, v).1 == k2) = false := by
          simp only [beq_eq_false_iff_ne, ne_eq]
          exact fun hh => h hh.symm
        have h2 : (kv.1 == k2) = false := by
          rw [hk1]
          simp only [beq_eq_false_iff_ne, ne_eq]
          exact fun hh => h hh.symm
        rw [h1, h2]
        exact ih
      · unfold replaceKV getKV
        simp only [List.map_cons, hk, if_neg, Bool.not_eq_true]
        rw [List.find?_cons, List.find?_cons]
        cases hkv2 : (kv.1 == k2)
        · exact ih
        · rfl

theorem getKV_insertKV_ne (fs : List (String × Json)) (k k2 : String) (v : Json)
    (h : k2 ≠ k) : getKV (insertKV fs k v) k2 = getKV fs k2 := by
  unfold insertKV
  by_cases hc : containsKey fs k
  · rw [if_pos hc]
    exact getKV_replaceKV_ne fs k k2 v h
  · rw [if_neg hc]
    unfold getKV
    rw [List.find?_append]
    cases hf : fs.find? (fun kv => kv.1 == k2)
    · simp only [Option.none_or]
      rw [List.find?_cons]
      have h1 : ((k, v).1 == k2) = false := by
        simp only [beq_eq_false_iff_ne, ne_eq]
        exact fun hh => h hh.symm
      rw [h1]
      rfl
    · simp

theorem getKV_dict_update_ne (data : List (String × Json)) (k : String)
    (hk : containsKey data k = false) :
    ∀ e : List (String × Json), getKV (dict_update e data) k = getKV e k := by
  induction data with
  | nil => intro e; rfl
  | cons kv rest ih =>
      intro e
      have hk1 : k ≠ kv.1 := by
        intro hh
        unfold containsKey at hk
        simp [hh] at hk
      have hkr : containsKey rest k = false := by
        unfold containsKey at hk ⊢
        simp only [List.any_cons, Bool.or_eq_false_iff] at hk
        exact hk.2
      unfold dict_update at ih ⊢
      rw [List.foldl_cons]
      rw [ih hkr (insertKV e kv.1 kv.2)]
      exact getKV_insertKV_ne e kv.1 k kv.2 hk1

/-- C9: a read-merge-write of the audit log preserves, unchanged, the
entry stored under every route other than the ones being written:
`save_to_json_file` merges the new mapping into the parsed existing mapping
with `dict.update`, which only touches the keys of the new data. -/
theorem audit_log_preserves_other_routes (existing data : List (String × Json))
    (route : String) (hroute : containsKey data route = false) :
    getKV (save_to_json_file data (some existing)) route = getKV existing route := by
  unfold save_to_json_file
  exact getKV_dict_update_ne data route hroute existing

/-- C9 witness: writing an error document for route `api/b` leaves the
stored entry for route `api/a` unchanged. -/
theorem audit_log_preserves_other_routes_witness :
    getKV (save_to_json_file [("api/b", Json.str "newdoc")]
        (some [("api/a", Json.str "olddoc")])) "api/a" =
      getKV [("api/a", Json.str "olddoc")] "api/a" :=
  audit_log_preserves_other_routes [("api/a", Json.str "olddoc")]
    [("api/b", Json.str "newdoc")] "api/a" (by decide)

/-! ### C6: what the correction executor returns on failures -/

/-- C6 counterexample: a correction script that exits `0` but prints
malformed, non-JSON output (exactly what a generated script does on invalid
JSON input: it prints an error message and exits `0`).  `fix_api` returns
the malformed stdout unchecked instead of the original payload, so the
claim's "malformed output implies the original payload is returned" is
false on the code. -/
theorem fix_api_returns_malformed_stdout :
    fix_api "\x7b\x7d" true (ExecOutcome.completed 0 "Error: Invalid JSON format.") =
      "Error: Invalid JSON format." ∧
    "Error: Invalid JSON format." ≠ "\x7b\x7d" :=
  ⟨rfl, by decide⟩

/-- C6 amended: the correction executor returns the original uncorrected
payload when the script file is missing, the execution times out, raises,
or exits with a non-zero code; failures are only logged (the function
always returns a string, never raises).  Malformed output of a script that
exits `0` is NOT detected: the stdout is returned unchecked. -/
theorem fix_api_failure_returns_original (api : String) (ex : Bool) (oc : ExecOutcome)
    (h : ex = false ∨ oc = ExecOutcome.timedOut ∨ oc = ExecOutcome.raised ∨
      ∃ rc out, oc = ExecOutcome.completed rc out ∧ rc ≠ 0) :
    fix_api api ex oc = api := by
  rcases h with h | h | h | ⟨rc, out, hoc, hrc⟩
  · subst h; rfl
  · subst h; cases ex <;> simp [fix_api]
  · subst h; cases ex <;> simp [fix_api]
  · subst hoc; cases ex <;> simp [fix_api, hrc]

/-- C6 amended witness: a timed-out execution returns the original
payload. -/
theorem fix_api_failure_returns_original_witness :
    fix_api "original" true ExecOutcome.timedOut = "original" :=
  fix_api_failure_returns_original "original" true ExecOutcome.timedOut
    (Or.inr (Or.inl rfl))

/-! ### C8: the fingerprint ignores route and method -/

/-- C8 (violated by the code): the cache-key path of `get_file_path` is a
function of the field names of the request payload and the schema alone —
the route (url) and the HTTP method are not part of the hashed `str_key`,
although the source's own comment says the file name is "based on URL,
method, and fields".  Hence two correction requests that agree on the
sorted field-name union but differ in route or method still collide on the
same fingerprint, contradicting the claimed "if and only if". -/
theorem get_file_path_ignores_route_and_method
    (url1 method1 url2 method2 : String) (body : Json) (backend : Json) :
    get_file_path ⟨url1, method1, some body⟩ backend =
      get_file_path ⟨url2, method2, some body⟩ backend := rfl

/-! ### C2: every correction request synthesizes -/

/-- C2 counterexample: a (second, identical) correction request whose
fingerprint artifact already exists still performs exactly one synthesis
(`generate_fix_data_script` write) on the converging example — not zero.
`apply_iterative_fixes` calls `generate_fix_data_script` unconditionally,
before `fix_api` ever consults the stored artifact. -/
theorem second_correction_still_synthesizes :
    (apply_iterative_fixes (Json.obj [("name", Json.num 0)])
        (Json.obj [("nme", Json.num 5)]) 5).2 = 1 ∧ (1 : Nat) ≠ 0 :=
  ⟨by decide, by decide⟩

/-- C2 amended: the synthesis count of `apply_iterative_fixes` is at least
one for every input — the stored artifact is never reused to skip
synthesis on this path (only the non-PUT/PATCH forward path runs `fix_api`
without generating).  Thus "at most one synthesis per fingerprint" fails:
every request through the iterative-fix path re-synthesizes. -/
theorem apply_iterative_fixes_always_synthesizes (schema clientReq : Json) (fuel : Nat) :
    1 ≤ (apply_iterative_fixes schema clientReq fuel).2 := by
  simp only [apply_iterative_fixes]
  omega

/-! ### C1: the convergence loop has no cap and can run forever -/

/-- Schema of the failing input of C1: a list whose element schema has the
field `name`. -/
def divergeSchema : Json := Json.obj [("items", Json.arr [Json.obj [("name", Json.num 0)]])]

/-- Payload of the failing input of C1: the field inside the list is
misspelled `nme`, so the matcher proposes the rename
`items[0].nme -> items[0].name`; but the generated script addresses it as
`data['items[0]']['nme']`, a key lookup that always fails (`items[0]` is
not a dict key), so the script never changes the payload and the loop
condition never becomes false. -/
def divergePayload : Json := Json.obj [("items", Json.arr [Json.obj [("nme", Json.num 0)]])]

theorem diverge_sim :
    simOf divergeSchema divergePayload = [("items[0].nme", "items[0].name", 857)] := by
  decide

theorem diverge_fix_data (l : List (String × String × Nat))
    (hl : ∀ c ∈ l, c = ("items[0].nme", "items[0].name", 857)) :
    fix_data l divergePayload = divergePayload := by
  induction l with
  | nil => rfl
  | cons c rest ih =>
      have hc := hl c (by simp)
      unfold fix_data
      rw [List.foldl_cons]
      have happ : applyRule divergePayload (splitDot c.1) (splitDot c.2.1) = divergePayload := by
        rw [hc]
        decide
      rw [happ]
      exact ih (fun d hd => hl d (by simp [hd]))

theorem diverge_loop_aux : ∀ (fuel : Nat) (sim : List (String × String × Nat)),
    (∀ c ∈ sim, c = ("items[0].nme", "items[0].name", 857)) →
    (loopAuxW divergeSchema divergePayload [("items[0].nme", "items[0].name", 857)]
      fuel divergePayload sim).1 = none := by
  intro fuel
  induction fuel with
  | zero => intro sim hsim; rfl
  | succ n ih =>
      intro sim hsim
      rw [loopAuxW]
      rw [if_neg (by rw [diverge_sim]; simp)]
      have hall : ∀ c ∈ ("items[0].nme", "items[0].name", 857) :: sim,
          c = ("items[0].nme", "items[0].name", 857) := by
        intro c hc
        rcases List.mem_cons.mp hc with h | h
        · exact h
        · exact hsim c h
      have hfix2 : fix_data ([("items[0].nme", "items[0].name", 857)] ++ sim)
          divergePayload = divergePayload := diverge_fix_data _ (by simpa using hall)
      simp only [hfix2, diverge_sim]
      exact ih (sim ++ [("items[0].nme", "items[0].name", 857)]) (by
        intro c hc
        rcases List.mem_append.mp hc with h | h
        · exact hsim c h
        · simpa using h)

/-- C1 (violated by the code): the convergence loop of
`apply_iterative_fixes` (the same `while` loop is inlined in the `response`
hook) has no iteration cap and, on the failing input
`divergeSchema`/`divergePayload`, never terminates: whatever iteration
bound is granted, the loop is still running — it neither converges nor
reaches any `Exhausted` state (the source has none). -/
theorem convergence_loop_never_terminates (fuel : Nat) :
    (apply_iterative_fixes divergeSchema divergePayload fuel).1 = none := by
  unfold apply_iterative_fixes
  simp only [diverge_sim]
  have hfix0 : fix_data [("items[0].nme", "items[0].name", 857)] divergePayload =
      divergePayload := diverge_fix_data _ (by simp)
  simp only [hfix0, diverge_sim]
  exact diverge_loop_aux fuel [("items[0].nme", "items[0].name", 857)] (by simp)

/-! ### C7: the response hook -/

/-- C7: the response hook modifies the proxied response only when the
status code lies in the fixed failure set and the request has a non-empty
body; when it acts (and the original body parses and the correction loop
terminates), a replay timeout leaves the original response untouched and a
replay success substitutes the replay's status code and content; for every
other status code or a bodiless request the response passes through
unmodified. -/
theorem response_hook_spec (status : Nat) (reqContent : String) (origReq : Option Json)
    (schema : Json) (fuel : Nat) (replay : ReplayOutcome) (resp : ProxyResponse) :
    ((status ∉ failure_status_codes ∨ reqContent = "") →
      response_hook status reqContent origReq schema fuel replay resp = some resp) ∧
    (∀ req fixed, status ∈ failure_status_codes → reqContent ≠ "" →
      origReq = some req → (apply_iterative_fixes schema req fuel).1 = some fixed →
      (replay = ReplayOutcome.timedOut →
        response_hook status reqContent origReq schema fuel replay resp = some resp) ∧
      (∀ c s, replay = ReplayOutcome.success c s →
        response_hook status reqContent origReq schema fuel replay resp = some ⟨c, s⟩)) := by
  constructor
  · intro h
    unfold response_hook
    rcases h with h | h
    · rw [if_neg (by intro hh; exact h hh.1)]
    · rw [if_neg (by intro hh; exact hh.2 h)]
  · intro req fixed hstatus hbody horig hloop
    subst horig
    constructor
    · intro hreplay
      subst hreplay
      unfold response_hook
      rw [if_pos ⟨hstatus, hbody⟩]
      simp only [hloop]
    · intro c s hreplay
      subst hreplay
      unfold response_hook
      rw [if_pos ⟨hstatus, hbody⟩]
      simp only [hloop]

/-- C7 witness: a 400 response to a request with a body, whose correction
loop converges immediately and whose replay succeeds with 201, gets its
status and content replaced by the replay's. -/
theorem response_hook_spec_witness :
    response_hook 400 "x" (some (Json.obj [("id", Json.num 1)]))
      (Json.obj [("id", Json.num 0)]) 1 (ReplayOutcome.success 201 "ok")
      ⟨400, "err"⟩ = some ⟨201, "ok"⟩ :=
  ((response_hook_spec 400 "x" (some (Json.obj [("id", Json.num 1)]))
      (Json.obj [("id", Json.num 0)]) 1 (ReplayOutcome.success 201 "ok")
      ⟨400, "err"⟩).2 (Json.obj [("id", Json.num 1)]) (Json.obj [("id", Json.num 1)])
    (by decide) (by decide) rfl (by decide)).2 201 "ok" rfl

/-! ### C4: lemmas about dict updates and one rename block -/

theorem getKV_cons (kv : String × Json) (rest : List (String × Json)) (k2 : String) :
    getKV (kv :: rest) k2 = if kv.1 = k2 then some kv.2 else getKV rest k2 := by
  unfold getKV
  by_cases hk : kv.1 = k2
  · rw [if_pos hk, List.find?_cons_of_pos _ (by simp [hk])]
    rfl
  · rw [if_neg hk, List.find?_cons_of_neg _ (by simp [hk])]

theorem containsKey_cons (kv : String × Json) (rest : List (String × Json)) (k2 : String) :
    containsKey (kv :: rest) k2 = ((kv.1 == k2) || containsKey rest k2) := by
  unfold containsKey
  rw [List.any_cons]

theorem eraseKV_cons (kv : String × Json) (rest : List (String × Json)) (k : String) :
    eraseKV (kv :: rest) k = if kv.1 = k then eraseKV rest k else kv :: eraseKV rest k := by
  by_cases hk : kv.1 = k <;> simp [eraseKV, List.filter_cons, hk]

theorem replaceKV_cons (kv : String × Json) (rest : List (String × Json)) (k : String)
    (v : Json) :
    replaceKV (kv :: rest) k v =
      (if kv.1 = k then (k, v) else kv) :: replaceKV rest k v := by
  by_cases hk : kv.1 = k <;> simp [replaceKV, hk]

theorem replaceKV_of_not_contains (fs : List (String × Json)) (k : String) (v : Json)
    (h : containsKey fs k = false) : replaceKV fs k v = fs := by
  induction fs with
  | nil => rfl
  | cons kv rest ih =>
      rw [containsKey_cons, Bool.or_eq_false_iff] at h
      have hk : ¬ kv.1 = k := by simpa using h.1
      rw [replaceKV_cons, if_neg hk, ih h.2]

theorem containsKey_replaceKV (fs : List (String × Json)) (k : String) (v : Json)
    (k2 : String) : containsKey (replaceKV fs k v) k2 = containsKey fs k2 := by
  induction fs with
  | nil => rfl
  | cons kv rest ih =>
      rw [replaceKV_cons]
      by_cases hk : kv.1 = k
      · rw [if_pos hk, containsKey_cons, containsKey_cons, ih, hk]
      · rw [if_neg hk, containsKey_cons, containsKey_cons, ih]

theorem getKV_replaceKV_same (fs : List (String × Json)) (k : String) (v : Json)
    (h : containsKey fs k = true) : getKV (replaceKV fs k v) k = some v := by
  induction fs with
  | nil => simp [containsKey] at h
  | cons kv rest ih =>
      rw [replaceKV_cons]
      by_cases hk : kv.1 = k
      · rw [if_pos hk, getKV_cons, if_pos rfl]
      · rw [if_neg hk, getKV_cons, if_neg hk]
        rw [containsKey_cons, Bool.or_eq_true] at h
        rcases h with h | h
        · exact absurd (by simpa using h) hk
        · exact ih h

theorem replaceKV_replaceKV (fs : List (String × Json)) (k : String) (u w : Json) :
    replaceKV (replaceKV fs k u) k w = replaceKV fs k w := by
  induction fs with
  | nil => rfl
  | cons kv rest ih =>
      by_cases hk : kv.1 = k <;> simp [replaceKV_cons, hk, ih]

theorem getKV_append_single (fs : List (String × Json)) (k : String) (v : Json)
    (h : containsKey fs k = false) : getKV (fs ++ [(k, v)]) k = some v := by
  induction fs with
  | nil => rw [List.nil_append, getKV_cons, if_pos rfl]
  | cons kv rest ih =>
      rw [containsKey_cons, Bool.or_eq_false_iff] at h
      rw [List.cons_append, getKV_cons, if_neg (by simpa using h.1)]
      exact ih h.2

theorem getKV_insertKV_same (fs : List (String × Json)) (k : String) (v : Json) :
    getKV (insertKV fs k v) k = some v := by
  unfold insertKV
  by_cases hc : containsKey fs k
  · rw [if_pos hc]
    exact getKV_replaceKV_same fs k v hc
  · rw [if_neg hc]
    exact getKV_append_single fs k v (by simpa using hc)

theorem containsKey_insertKV_ne (fs : List (String × Json)) (k : String) (v : Json)
    (k2 : String) (h : k2 ≠ k) :
    containsKey (insertKV fs k v) k2 = containsKey fs k2 := by
  unfold insertKV
  by_cases hc : containsKey fs k
  · rw [if_pos hc, containsKey_replaceKV]
  · rw [if_neg hc]
    unfold containsKey
    rw [List.any_append]
    have h1 : [(k, v)].any (fun kv => kv.1 == k2) = false := by
      simp only [List.any_cons, List.any_nil, Bool.or_false, beq_eq_false_iff_ne, ne_eq]
      exact fun hh => h hh.symm
    rw [h1, Bool.or_false]

theorem containsKey_eraseKV_same (fs : List (String × Json)) (k : String) :
    containsKey (eraseKV fs k) k = false := by
  induction fs with
  | nil => rfl
  | cons kv rest ih =>
      rw [eraseKV_cons]
      by_cases hk : kv.1 = k
      · rw [if_pos hk]
        exact ih
      · rw [if_neg hk, containsKey_cons, ih]
        simp [hk]

theorem getKV_eraseKV_ne (fs : List (String × Json)) (k k2 : String) (h : k2 ≠ k) :
    getKV (eraseKV fs k) k2 = getKV fs k2 := by
  induction fs with
  | nil => rfl
  | cons kv rest ih =>
      rw [eraseKV_cons]
      by_cases hk : kv.1 = k
      · rw [if_pos hk, getKV_cons, if_neg (by rw [hk]; exact fun hh => h hh.symm), ih]
      · rw [if_neg hk, getKV_cons, getKV_cons, ih]

theorem containsKey_eraseKV_ne (fs : List (String × Json)) (k k2 : String) (h : k2 ≠ k) :
    containsKey (eraseKV fs k) k2 = containsKey fs k2 := by
  induction fs with
  | nil => rfl
  | cons kv rest ih =>
      rw [eraseKV_cons]
      by_cases hk : kv.1 = k
      · rw [if_pos hk, containsKey_cons, ih]
        have h2 : (kv.1 == k2) = false := by
          rw [hk]
          simp only [beq_eq_false_iff_ne, ne_eq]
          exact fun hh => h hh.symm
        rw [h2]
        simp
      · rw [if_neg hk, containsKey_cons, containsKey_cons, ih]

theorem getKV_eq_getD (fs : List (String × Json)) (k : String)
    (h : containsKey fs k = true) : getKV fs k = some (getD fs k) := by
  unfold getD
  cases hf : getKV fs k with
  | none =>
      exfalso
      rcases List.any_eq_true.mp h with ⟨kv, hkv, hb⟩
      unfold getKV at hf
      cases hff : fs.find? (fun kv => kv.1 == k) with
      | none => exact absurd hb (by simpa using List.find?_eq_none.mp hff kv hkv)
      | some w => rw [hff] at hf; simp at hf
  | some v => rfl

theorem getKV_none_of_not_contains (fs : List (String × Json)) (k : String)
    (h : containsKey fs k = false) : getKV fs k = none := by
  unfold getKV
  have h1 : fs.find? (fun kv => kv.1 == k) = none := by
    rw [List.find?_eq_none]
    intro kv hkv hb
    rw [Bool.eq_false_iff] at h
    exact h (List.any_eq_true.mpr ⟨kv, hkv, hb⟩)
  rw [h1]
  rfl

theorem containsKey_of_getKV {fs : List (String × Json)} {k : String} {v : Json}
    (h : getKV fs k = some v) : containsKey fs k = true := by
  by_cases hc : containsKey fs k
  · exact hc
  · rw [getKV_none_of_not_contains fs k (by simpa using hc)] at h
    simp at h

theorem lookupJ_nil (d : Json) : lookupJ d [] = some d := by
  cases d <;> rfl

theorem lookupJ_cons (fs : List (String × Json)) (a : String) (rest : List String) :
    lookupJ (Json.obj fs) (a :: rest) =
      match getKV fs a with
      | some v => lookupJ v rest
      | none => none := rfl

theorem lookupJ_cons_leaf (d : Json) (a : String) (rest : List String)
    (h : ∀ fs, d ≠ Json.obj fs) : lookupJ d (a :: rest) = none := by
  cases d with
  | obj fs => exact absurd rfl (h fs)
  | null => rfl
  | bool b => rfl
  | num n => rfl
  | str s => rfl
  | arr xs => rfl

theorem updAt_nil (d X : Json) : updAt d [] X = X := by
  simp only [updAt]

theorem updAt_cons (fs : List (String × Json)) (k : String) (rest : List String)
    (X : Json) :
    updAt (Json.obj fs) (k :: rest) X =
      Json.obj (replaceKV fs k (updAt (getD fs k) rest X)) := by
  simp only [updAt]

theorem updAt_leaf (d : Json) (k : String) (rest : List String) (X : Json)
    (h : ∀ fs, d ≠ Json.obj fs) : updAt d (k :: rest) X = d := by
  cases d with
  | obj fs => exact absurd rfl (h fs)
  | null => simp only [updAt]
  | bool b => simp only [updAt]
  | num n => simp only [updAt]
  | str s => simp only [updAt]
  | arr xs => simp only [updAt]

theorem lookupJ_append (p : List String) :
    ∀ (d : Json) (q : List String),
      lookupJ d (p ++ q) = (lookupJ d p).bind (fun x => lookupJ x q) := by
  induction p with
  | nil =>
      intro d q
      rw [List.nil_append, lookupJ_nil]
      rfl
  | cons a p' ih =>
      intro d q
      cases d with
      | obj fs =>
          rw [List.cons_append, lookupJ_cons, lookupJ_cons]
          cases hk : getKV fs a with
          | none => rfl
          | some child => exact ih child q
      | null => rfl
      | bool b => rfl
      | num n => rfl
      | str s => rfl
      | arr xs => rfl

theorem pathPre_append (p q : List String) : pathPre p (p ++ q) = true := by
  induction p with
  | nil => rfl
  | cons a p' ih => simp [pathPre, ih]

theorem pathPre_iff_exists (q p : List String) :
    pathPre q p = true ↔ ∃ rest, p = q ++ rest := by
  constructor
  · intro h
    induction q generalizing p with
    | nil => exact ⟨p, rfl⟩
    | cons a q' ih =>
        cases p with
        | nil => simp [pathPre] at h
        | cons b p' =>
            simp only [pathPre, Bool.and_eq_true, beq_iff_eq] at h
            obtain ⟨rest, hrest⟩ := ih p' h.2
            exact ⟨rest, by rw [List.cons_append, ← hrest, h.1]⟩
  · rintro ⟨rest, rfl⟩
    exact pathPre_append q rest

theorem lookupJ_updAt_prefix (p : List String) :
    ∀ (d : Json) (rest : List String) (X z : Json), lookupJ d p = some z →
      lookupJ (updAt d (p ++ rest) X) p = some (updAt z rest X) := by
  induction p with
  | nil =>
      intro d rest X z hz
      rw [lookupJ_nil] at hz
      have hd : d = z := by simpa using hz
      subst hd
      rw [List.nil_append, lookupJ_nil]
  | cons a p' ih =>
      intro d rest X z hz
      cases d with
      | obj fs =>
          rw [lookupJ_cons] at hz
          cases hk : getKV fs a with
          | none => rw [hk] at hz; simp at hz
          | some child =>
              rw [hk] at hz
              have hcont : containsKey fs a = true := containsKey_of_getKV hk
              have hgd : getD fs a = child := by
                unfold getD
                rw [hk]
                rfl
              rw [List.cons_append, updAt_cons, lookupJ_cons,
                getKV_replaceKV_same fs a _ hcont, hgd]
              exact ih child rest X z hz
      | null => rw [lookupJ_cons_leaf _ _ _ (by intro fs h; cases h)] at hz; simp at hz
      | bool b => rw [lookupJ_cons_leaf _ _ _ (by intro fs h; cases h)] at hz; simp at hz
      | num n => rw [lookupJ_cons_leaf _ _ _ (by intro fs h; cases h)] at hz; simp at hz
      | str s => rw [lookupJ_cons_leaf _ _ _ (by intro fs h; cases h)] at hz; simp at hz
      | arr xs => rw [lookupJ_cons_leaf _ _ _ (by intro fs h; cases h)] at hz; simp at hz

theorem lookupJ_updAt_diverge (q : List String) :
    ∀ (p : List String) (d X : Json), pathPre q p = false → pathPre p q = false →
      lookupJ (updAt d q X) p = lookupJ d p := by
  induction q with
  | nil => intro p d X h1 _; simp [pathPre] at h1
  | cons a q' ih =>
      intro p d X h1 h2
      cases p with
      | nil => simp [pathPre] at h2
      | cons b p' =>
          cases d with
          | obj fs =>
              rw [updAt_cons, lookupJ_cons, lookupJ_cons]
              by_cases hab : a = b
              · subst hab
                simp only [pathPre, BEq.refl, Bool.true_and] at h1 h2
                cases hc : containsKey fs a with
                | false =>
                    rw [replaceKV_of_not_contains fs a _ hc]
                | true =>
                    rw [getKV_replaceKV_same fs a _ hc]
                    rw [getKV_eq_getD fs a hc]
                    exact ih p' (getD fs a) X h1 h2
              · rw [getKV_replaceKV_ne fs a b _ (fun hh => hab hh.symm)]
          | null => rw [updAt_leaf _ _ _ _ (by intro fs h; cases h)]
          | bool bb => rw [updAt_leaf _ _ _ _ (by intro fs h; cases h)]
          | num n => rw [updAt_leaf _ _ _ _ (by intro fs h; cases h)]
          | str s => rw [updAt_leaf _ _ _ _ (by intro fs h; cases h)]
          | arr xs => rw [updAt_leaf _ _ _ _ (by intro fs h; cases h)]

theorem updAt_updAt (p : List String) :
    ∀ (d z X Y : Json), lookupJ d p = some z →
      updAt (updAt d p X) p Y = updAt d p Y := by
  induction p with
  | nil => intro d z X Y _; simp [updAt_nil]
  | cons a p' ih =>
      intro d z X Y hz
      cases d with
      | obj fs =>
          rw [lookupJ_cons] at hz
          cases hk : getKV fs a with
          | none => rw [hk] at hz; simp at hz
          | some child =>
              rw [hk] at hz
              have hcont : containsKey fs a = true := containsKey_of_getKV hk
              have hgd : getD fs a = child := by
                unfold getD
                rw [hk]
                rfl
              rw [updAt_cons, updAt_cons, updAt_cons]
              have hgd2 : getD (replaceKV fs a (updAt (getD fs a) p' X)) a =
                  updAt (getD fs a) p' X := by
                unfold getD
                rw [getKV_replaceKV_same fs a _ hcont]
                rfl
              rw [hgd2, replaceKV_replaceKV, hgd, ih child z X Y hz]
      | null => rw [lookupJ_cons_leaf _ _ _ (by intro fs h; cases h)] at hz; simp at hz
      | bool b => rw [lookupJ_cons_leaf _ _ _ (by intro fs h; cases h)] at hz; simp at hz
      | num n => rw [lookupJ_cons_leaf _ _ _ (by intro fs h; cases h)] at hz; simp at hz
      | str s => rw [lookupJ_cons_leaf _ _ _ (by intro fs h; cases h)] at hz; simp at hz
      | arr xs => rw [lookupJ_cons_leaf _ _ _ (by intro fs h; cases h)] at hz; simp at hz

theorem setJ_nil_path (d : Json) (v : Json) : setJ d [] v = none := by
  cases d <;> rfl

theorem setJ_single (fs : List (String × Json)) (k : String) (v : Json) :
    setJ (Json.obj fs) [k] v = some (Json.obj (insertKV fs k v)) := rfl

theorem setJ_cons (gs : List (String × Json)) (a : String) (rest : List String) (v : Json)
    (hrest : rest ≠ []) :
    setJ (Json.obj gs) (a :: rest) v =
      match getKV gs a with
      | some child => (setJ child rest v).map (fun c => Json.obj (replaceKV gs a c))
      | none => none := by
  cases rest with
  | nil => exact absurd rfl hrest
  | cons b r => rfl

theorem delJ_single (fs : List (String × Json)) (k : String) :
    delJ (Json.obj fs) [k] =
      if containsKey fs k then some (Json.obj (eraseKV fs k)) else none := rfl

theorem delJ_cons (gs : List (String × Json)) (a : String) (rest : List String)
    (hrest : rest ≠ []) :
    delJ (Json.obj gs) (a :: rest) =
      match getKV gs a with
      | some child => (delJ child rest).map (fun c => Json.obj (replaceKV gs a c))
      | none => none := by
  cases rest with
  | nil => exact absurd rfl hrest
  | cons b r => rfl

theorem setJ_spec (p : List String) :
    ∀ (d : Json) (fs : List (String × Json)) (cl : String) (v : Json),
      lookupJ d p = some (Json.obj fs) →
      setJ d (p ++ [cl]) v = some (updAt d p (Json.obj (insertKV fs cl v))) := by
  induction p with
  | nil =>
      intro d fs cl v hl
      rw [lookupJ_nil] at hl
      have hd : d = Json.obj fs := by simpa using hl
      subst hd
      rw [List.nil_append, setJ_single, updAt_nil]
  | cons a p' ih =>
      intro d fs cl v hl
      cases d with
      | obj gs =>
          rw [lookupJ_cons] at hl
          cases hk : getKV gs a with
          | none => rw [hk] at hl; simp at hl
          | some child =>
              rw [hk] at hl
              have hcont : containsKey gs a = true := containsKey_of_getKV hk
              have hgd : getD gs a = child := by
                unfold getD
                rw [hk]
                rfl
              rw [List.cons_append, setJ_cons gs a (p' ++ [cl]) v (by simp), hk]
              show Option.map (fun c => Json.obj (replaceKV gs a c)) (setJ child (p' ++ [cl]) v) =
                some (updAt (Json.obj gs) (a :: p') (Json.obj (insertKV fs cl v)))
              rw [ih child fs cl v hl, updAt_cons, hgd]
              rfl
      | null => rw [lookupJ_cons_leaf _ _ _ (by intro fs h; cases h)] at hl; simp at hl
      | bool b => rw [lookupJ_cons_leaf _ _ _ (by intro fs h; cases h)] at hl; simp at hl
      | num n => rw [lookupJ_cons_leaf _ _ _ (by intro fs h; cases h)] at hl; simp at hl
      | str s => rw [lookupJ_cons_leaf _ _ _ (by intro fs h; cases h)] at hl; simp at hl
      | arr xs => rw [lookupJ_cons_leaf _ _ _ (by intro fs h; cases h)] at hl; simp at hl

theorem delJ_spec (p : List String) :
    ∀ (d : Json) (fs : List (String × Json)) (wl : String),
      lookupJ d p = some (Json.obj fs) → containsKey fs wl = true →
      delJ d (p ++ [wl]) = some (updAt d p (Json.obj (eraseKV fs wl))) := by
  induction p with
  | nil =>
      intro d fs wl hl hc
      rw [lookupJ_nil] at hl
      have hd : d = Json.obj fs := by simpa using hl
      subst hd
      rw [List.nil_append, delJ_single, if_pos hc, updAt_nil]
  | cons a p' ih =>
      intro d fs wl hl hc
      cases d with
      | obj gs =>
          rw [lookupJ_cons] at hl
          cases hk : getKV gs a with
          | none => rw [hk] at hl; simp at hl
          | some child =>
              rw [hk] at hl
              have hcont : containsKey gs a = true := containsKey_of_getKV hk
              have hgd : getD gs a = child := by
                unfold getD
                rw [hk]
                rfl
              rw [List.cons_append, delJ_cons gs a (p' ++ [wl]) (by simp), hk]
              show Option.map (fun c => Json.obj (replaceKV gs a c)) (delJ child (p' ++ [wl])) =
                some (updAt (Json.obj gs) (a :: p') (Json.obj (eraseKV fs wl)))
              rw [ih child fs wl hl hc, updAt_cons, hgd]
              rfl
      | null => rw [lookupJ_cons_leaf _ _ _ (by intro fs h; cases h)] at hl; simp at hl
      | bool b => rw [lookupJ_cons_leaf _ _ _ (by intro fs h; cases h)] at hl; simp at hl
      | num n => rw [lookupJ_cons_leaf _ _ _ (by intro fs h; cases h)] at hl; simp at hl
      | str s => rw [lookupJ_cons_leaf _ _ _ (by intro fs h; cases h)] at hl; simp at hl
      | arr xs => rw [lookupJ_cons_leaf _ _ _ (by intro fs h; cases h)] at hl; simp at hl

theorem applyRule_nil_wrong (d : Json) (c : List String) : applyRule d [] c = d := rfl

theorem applyRule_concat (d : Json) (p : List String) (wl : String) (c : List String) :
    applyRule d (p ++ [wl]) c =
      match lookupJ d p with
      | none => d
      | some container =>
          match membJ container wl with
          | some true =>
              match lookupJ d (p ++ [wl]) with
              | none => d
              | some v =>
                  match setJ d c v with
                  | none => d
                  | some d1 =>
                      match delJ d1 (p ++ [wl]) with
                      | none => d1
                      | some d2 => d2
          | _ => d := by
  unfold applyRule
  rw [List.getLast?_concat, List.dropLast_concat]

theorem applyRule_correct_nil (d : Json) (w : List String) : applyRule d w [] = d := by
  rcases List.eq_nil_or_concat w with h | ⟨p, wl, rfl⟩
  · subst h
    exact applyRule_nil_wrong d []
  · rw [List.concat_eq_append, applyRule_concat]
    cases hl : lookupJ d p with
    | none => rfl
    | some container =>
        show (match membJ container wl with
              | some true =>
                  match lookupJ d (p ++ [wl]) with
                  | none => d
                  | some v =>
                      match setJ d [] v with
                      | none => d
                      | some d1 =>
                          match delJ d1 (p ++ [wl]) with
                          | none => d1
                          | some d2 => d2
              | _ => d) = d
        cases hm : membJ container wl with
        | none => rfl
        | some b =>
            cases b with
            | false => rfl
            | true =>
                cases hv : lookupJ d (p ++ [wl]) with
                | none => rfl
                | some v =>
                    show (match setJ d [] v with
                          | none => d
                          | some d1 =>
                              match delJ d1 (p ++ [wl]) with
                              | none => d1
                              | some d2 => d2) = d
                    rw [setJ_nil_path]

theorem applyRule_noop (d : Json) (p : List String) (wl : String) (c : List String)
    (h : ¬ guardB d p wl) : applyRule d (p ++ [wl]) c = d := by
  rw [applyRule_concat]
  cases hl : lookupJ d p with
  | none => rfl
  | some container =>
      cases container with
      | obj fs =>
          have hcf : containsKey fs wl = false := by
            rw [Bool.eq_false_iff]
            intro hc
            exact h ⟨fs, hl, hc⟩
          simp only [membJ, hcf]
      | str s =>
          simp only [membJ]
          cases hsc : strContains s wl with
          | false => rfl
          | true =>
              have hnone : lookupJ d (p ++ [wl]) = none := by
                rw [lookupJ_append, hl]
                rfl
              rw [hnone]
      | arr xs =>
          simp only [membJ]
          cases hsc : xs.any (fun x => x == Json.str wl) with
          | false => rfl
          | true =>
              have hnone : lookupJ d (p ++ [wl]) = none := by
                rw [lookupJ_append, hl]
                rfl
              rw [hnone]
      | null => rfl
      | bool b => rfl
      | num n => rfl

theorem applyRule_fired (d : Json) (p : List String) (wl cl : String)
    (fs : List (String × Json)) (hl : lookupJ d p = some (Json.obj fs))
    (hc : containsKey fs wl = true) (hne : wl ≠ cl) :
    applyRule d (p ++ [wl]) (p ++ [cl]) =
      updAt d p (Json.obj (eraseKV (insertKV fs cl (getD fs wl)) wl)) := by
  rw [applyRule_concat, hl]
  simp only [membJ, hc]
  have hget : lookupJ d (p ++ [wl]) = some (getD fs wl) := by
    rw [lookupJ_append, hl]
    show lookupJ (Json.obj fs) [wl] = some (getD fs wl)
    rw [lookupJ_cons, getKV_eq_getD fs wl hc]
    exact lookupJ_nil _
  rw [hget]
  show (match setJ d (p ++ [cl]) (getD fs wl) with
        | none => d
        | some d1 =>
            match delJ d1 (p ++ [wl]) with
            | none => d1
            | some d2 => d2) =
      updAt d p (Json.obj (eraseKV (insertKV fs cl (getD fs wl)) wl))
  rw [setJ_spec p d fs cl (getD fs wl) hl]
  show (match delJ (updAt d p (Json.obj (insertKV fs cl (getD fs wl)))) (p ++ [wl]) with
        | none => updAt d p (Json.obj (insertKV fs cl (getD fs wl)))
        | some d2 => d2) =
      updAt d p (Json.obj (eraseKV (insertKV fs cl (getD fs wl)) wl))
  have hd1 : lookupJ (updAt d p (Json.obj (insertKV fs cl (getD fs wl)))) p =
      some (Json.obj (insertKV fs cl (getD fs wl))) := by
    have h2 := lookupJ_updAt_prefix p d [] (Json.obj (insertKV fs cl (getD fs wl)))
      (Json.obj fs) hl
    rw [List.append_nil] at h2
    rw [h2, updAt_nil]
  have hc1 : containsKey (insertKV fs cl (getD fs wl)) wl = true := by
    rw [containsKey_insertKV_ne fs cl (getD fs wl) wl hne, hc]
  rw [delJ_spec p _ _ wl hd1 hc1]
  exact updAt_updAt p d (Json.obj fs) _ _ hl

theorem pathPre_refl (p : List String) : pathPre p p = true := by
  have h := pathPre_append p []
  rwa [List.append_nil] at h

/-- The frame property of one fired sibling rename: it cannot make the
guard of another rename block true, unless its correct path is a prefix of
that block's wrong path. -/
theorem guardB_frame (d : Json) (q : List String) (wls cls : String)
    (gs : List (String × Json)) (p : List String) (wl : String)
    (hl : lookupJ d q = some (Json.obj gs)) (hcs : containsKey gs wls = true)
    (hnp : pathPre (q ++ [cls]) (p ++ [wl]) = false)
    (hg : ¬ guardB d p wl) :
    ¬ guardB (updAt d q (Json.obj (eraseKV (insertKV gs cls (getD gs wls)) wls))) p wl := by
  set X := Json.obj (eraseKV (insertKV gs cls (getD gs wls)) wls) with hX
  by_cases hqp : pathPre q p = true
  · obtain ⟨rest, rfl⟩ := (pathPre_iff_exists q p).mp hqp
    cases rest with
    | nil =>
        rw [List.append_nil] at hnp hg ⊢
        intro hgB
        obtain ⟨fs2, hl2, hc2⟩ := hgB
        have hXq : lookupJ (updAt d q X) q = some X := by
          have h2 := lookupJ_updAt_prefix q d [] X (Json.obj gs) hl
          rw [List.append_nil] at h2
          rw [h2, updAt_nil]
        rw [hXq, hX] at hl2
        have hfs2 : fs2 = eraseKV (insertKV gs cls (getD gs wls)) wls := by
          have := Option.some.inj hl2
          cases this
          rfl
        subst hfs2
        by_cases hwwls : wl = wls
        · subst hwwls
          rw [containsKey_eraseKV_same] at hc2
          simp at hc2
        · by_cases hwcls : wl = cls
          · subst hwcls
            rw [pathPre_refl] at hnp
            simp at hnp
          · rw [containsKey_eraseKV_ne _ _ _ hwwls,
              containsKey_insertKV_ne _ _ _ _ hwcls] at hc2
            exact hg ⟨gs, hl, hc2⟩
    | cons k rest2 =>
        have hXq : lookupJ (updAt d q X) q = some X := by
          have h2 := lookupJ_updAt_prefix q d [] X (Json.obj gs) hl
          rw [List.append_nil] at h2
          rw [h2, updAt_nil]
        by_cases hkwls : k = wls
        · subst hkwls
          intro hgB
          obtain ⟨fs2, hl2, hc2⟩ := hgB
          have hnone : lookupJ (updAt d q X) ((q ++ k :: rest2) ++ [wl]) =
              none ∨ True := Or.inr trivial
          have hlp : lookupJ (updAt d q X) (q ++ k :: rest2) = none := by
            rw [lookupJ_append, hXq]
            show lookupJ X (k :: rest2) = none
            rw [hX, lookupJ_cons,
              getKV_none_of_not_contains _ _ (containsKey_eraseKV_same _ _)]
          rw [hlp] at hl2
          simp at hl2
        · by_cases hkcls : k = cls
          · exfalso
            subst hkcls
            have : (q ++ k :: rest2) ++ [wl] = (q ++ [k]) ++ (rest2 ++ [wl]) := by
              simp
            rw [this, pathPre_append] at hnp
            simp at hnp
          · have hEqk : getKV (eraseKV (insertKV gs cls (getD gs wls)) wls) k =
                getKV gs k := by
              rw [getKV_eraseKV_ne _ _ _ hkwls, getKV_insertKV_ne _ _ _ _ hkcls]
            have hEq : lookupJ (updAt d q X) (q ++ k :: rest2) =
                lookupJ d (q ++ k :: rest2) := by
              rw [lookupJ_append, hXq, lookupJ_append, hl]
              show lookupJ X (k :: rest2) = lookupJ (Json.obj gs) (k :: rest2)
              rw [hX, lookupJ_cons, lookupJ_cons, hEqk]
            intro hgB
            obtain ⟨fs2, hl2, hc2⟩ := hgB
            rw [hEq] at hl2
            exact hg ⟨fs2, hl2, hc2⟩
  · by_cases hpq : pathPre p q = true
    · obtain ⟨rest, rfl⟩ := (pathPre_iff_exists p q).mp hpq
      cases rest with
      | nil =>
          rw [List.append_nil] at hqp
          exact absurd (pathPre_refl p) hqp
      | cons k rest2 =>
          rw [lookupJ_append] at hl
          cases hz : lookupJ d p with
          | none => rw [hz] at hl; simp at hl
          | some z =>
              rw [hz] at hl
              have hl2 : lookupJ z (k :: rest2) = some (Json.obj gs) := hl
              cases z with
              | obj gs0 =>
                  have hc0 : containsKey gs0 wl = false := by
                    rw [Bool.eq_false_iff]
                    intro hcc
                    exact hg ⟨gs0, hz, hcc⟩
                  have hlp := lookupJ_updAt_prefix p d (k :: rest2) X (Json.obj gs0) hz
                  intro hgB
                  obtain ⟨fs2, hl3, hc3⟩ := hgB
                  rw [hlp, updAt_cons] at hl3
                  have hfs2 : fs2 = replaceKV gs0 k (updAt (getD gs0 k) rest2 X) := by
                    have := Option.some.inj hl3
                    cases this
                    rfl
                  subst hfs2
                  rw [containsKey_replaceKV, hc0] at hc3
                  simp at hc3
              | null =>
                  rw [lookupJ_cons_leaf _ _ _ (by intro fs h; cases h)] at hl2
                  simp at hl2
              | bool b =>
                  rw [lookupJ_cons_leaf _ _ _ (by intro fs h; cases h)] at hl2
                  simp at hl2
              | num n =>
                  rw [lookupJ_cons_leaf _ _ _ (by intro fs h; cases h)] at hl2
                  simp at hl2
              | str s =>
                  rw [lookupJ_cons_leaf _ _ _ (by intro fs h; cases h)] at hl2
                  simp at hl2
              | arr xs =>
                  rw [lookupJ_cons_leaf _ _ _ (by intro fs h; cases h)] at hl2
                  simp at hl2
    · have hEq := lookupJ_updAt_diverge q p d X
        (Bool.eq_false_iff.mpr hqp) (Bool.eq_false_iff.mpr hpq)
      intro hgB
      obtain ⟨fs2, hl2, hc2⟩ := hgB
      rw [hEq] at hl2
      exact hg ⟨fs2, hl2, hc2⟩

/-- One sibling rename block (whose correct path is not a prefix of the
given wrong path) preserves the falsity of that wrong path's guard. -/
theorem guardB_preserved_step (d : Json) (s : String × String × Nat) (p : List String)
    (wl : String)
    (hsib : (splitDot s.1).dropLast = (splitDot s.2.1).dropLast)
    (hself : pathPre (splitDot s.2.1) (splitDot s.1) = false)
    (hnp : pathPre (splitDot s.2.1) (p ++ [wl]) = false)
    (hg : ¬ guardB d p wl) :
    ¬ guardB (applyRule d (splitDot s.1) (splitDot s.2.1)) p wl := by
  rcases List.eq_nil_or_concat (splitDot s.1) with hwnil | ⟨q, wls, hw⟩
  · rw [hwnil, applyRule_nil_wrong]
    exact hg
  · rw [List.concat_eq_append] at hw
    rcases List.eq_nil_or_concat (splitDot s.2.1) with hcnil | ⟨q2, cls, hcw⟩
    · rw [hcnil, applyRule_correct_nil]
      exact hg
    · rw [List.concat_eq_append] at hcw
      have hq : q2 = q := by
        have h := hsib
        rw [hw, hcw, List.dropLast_concat, List.dropLast_concat] at h
        exact h.symm
      rw [hq] at hcw
      have hne : wls ≠ cls := by
        intro heq
        rw [hw, hcw, ← heq] at hself
        rw [pathPre_refl] at hself
        simp at hself
      by_cases hfire : guardB d q wls
      · obtain ⟨gs, hlq, hcq⟩ := hfire
        rw [hw, hcw, applyRule_fired d q wls cls gs hlq hcq hne]
        refine guardB_frame d q wls cls gs p wl hlq hcq ?_ hg
        rw [hcw] at hnp
        exact hnp
      · rw [hw, applyRule_noop d q wls _ hfire]
        exact hg

/-- Running any list of sibling rename blocks (none of whose correct paths
is a prefix of the given wrong path) preserves the falsity of that wrong
path's guard. -/
theorem guardB_preserved (rest : List (String × String × Nat)) :
    ∀ (d : Json) (p : List String) (wl : String),
      (∀ s ∈ rest, (splitDot s.1).dropLast = (splitDot s.2.1).dropLast) →
      (∀ s ∈ rest, pathPre (splitDot s.2.1) (splitDot s.1) = false) →
      (∀ s ∈ rest, pathPre (splitDot s.2.1) (p ++ [wl]) = false) →
      ¬ guardB d p wl → ¬ guardB (fix_data rest d) p wl := by
  induction rest with
  | nil => intro d p wl _ _ _ hg; exact hg
  | cons s rest2 ih =>
      intro d p wl hsib hself hnp hg
      have hfold : fix_data (s :: rest2) d =
          fix_data rest2 (applyRule d (splitDot s.1) (splitDot s.2.1)) := rfl
      rw [hfold]
      exact ih _ p wl (fun t ht => hsib t (by simp [ht]))
        (fun t ht => hself t (by simp [ht]))
        (fun t ht => hnp t (by simp [ht]))
        (guardB_preserved_step d s p wl (hsib s (by simp)) (hself s (by simp))
          (hnp s (by simp)) hg)

/-- After one full pass of the synthesized script, every rename block is a
no-op: its wrong field is absent (it either fired and was deleted, or its
guard was false and nothing re-created it). -/
theorem fix_data_all_noop (cands : List (String × String × Nat))
    (hsib : ∀ c ∈ cands, (splitDot c.1).dropLast = (splitDot c.2.1).dropLast)
    (hpre : ∀ c ∈ cands, ∀ s ∈ cands, pathPre (splitDot s.2.1) (splitDot c.1) = false) :
    ∀ (d : Json), ∀ c ∈ cands,
      applyRule (fix_data cands d) (splitDot c.1) (splitDot c.2.1) = fix_data cands d := by
  induction cands with
  | nil => intro d c hc; simp at hc
  | cons r rest ih =>
      intro d c hc
      have hfold : fix_data (r :: rest) d =
          fix_data rest (applyRule d (splitDot r.1) (splitDot r.2.1)) := rfl
      rcases List.mem_cons.mp hc with rfl | hcr
      · rcases List.eq_nil_or_concat (splitDot c.1) with hwnil | ⟨q, wls, hw⟩
        · rw [hwnil]
          exact applyRule_nil_wrong _ _
        · rw [List.concat_eq_append] at hw
          rcases List.eq_nil_or_concat (splitDot c.2.1) with hcnil | ⟨q2, cls, hcw⟩
          · rw [hcnil]
            exact applyRule_correct_nil _ _
          · rw [List.concat_eq_append] at hcw
            have hq : q2 = q := by
              have h := hsib c (by simp)
              rw [hw, hcw, List.dropLast_concat, List.dropLast_concat] at h
              exact h.symm
            rw [hq] at hcw
            have hself := hpre c (by simp) c (by simp)
            have hne : wls ≠ cls := by
              intro heq
              rw [hw, hcw, ← heq, pathPre_refl] at hself
              simp at hself
            have hguard1 : ¬ guardB (applyRule d (splitDot c.1) (splitDot c.2.1)) q wls := by
              by_cases hfire : guardB d q wls
              · obtain ⟨gs, hlq, hcq⟩ := hfire
                rw [hw, hcw, applyRule_fired d q wls cls gs hlq hcq hne]
                intro hgB
                obtain ⟨fs2, hl2, hc2⟩ := hgB
                have hXq : lookupJ (updAt d q
                    (Json.obj (eraseKV (insertKV gs cls (getD gs wls)) wls))) q =
                    some (Json.obj (eraseKV (insertKV gs cls (getD gs wls)) wls)) := by
                  have h2 := lookupJ_updAt_prefix q d []
                    (Json.obj (eraseKV (insertKV gs cls (getD gs wls)) wls))
                    (Json.obj gs) hlq
                  rw [List.append_nil] at h2
                  rw [h2, updAt_nil]
                rw [hXq] at hl2
                have hfs2 : fs2 = eraseKV (insertKV gs cls (getD gs wls)) wls := by
                  have := Option.some.inj hl2
                  cases this
                  rfl
                subst hfs2
                rw [containsKey_eraseKV_same] at hc2
                simp at hc2
              · rw [hw, applyRule_noop d q wls _ hfire]
                exact hfire
            have hpres := guardB_preserved rest
              (applyRule d (splitDot c.1) (splitDot c.2.1)) q wls
              (fun t ht => hsib t (by simp [ht]))
              (fun t ht => hpre t (by simp [ht]) t (by simp [ht]))
              (fun t ht => by
                have := hpre c (by simp) t (by simp [ht])
                rw [hw] at this
                exact this)
              hguard1
            rw [hw, hcw] at hpres
            rw [hfold, hw, hcw]
            exact applyRule_noop _ q wls _ hpres
      · rw [hfold]
        exact ih (fun t ht => hsib t (by simp [ht]))
          (fun t ht s hs => hpre t (by simp [ht]) s (by simp [hs]))
          (applyRule d (splitDot r.1) (splitDot r.2.1)) c hcr

theorem fix_data_of_all_noop (cands : List (String × String × Nat)) :
    ∀ (D : Json),
      (∀ c ∈ cands, applyRule D (splitDot c.1) (splitDot c.2.1) = D) →
      fix_data cands D = D := by
  induction cands with
  | nil => intro D _; rfl
  | cons c rest ih =>
      intro D h
      have hfold : fix_data (c :: rest) D =
          fix_data rest (applyRule D (splitDot c.1) (splitDot c.2.1)) := rfl
      rw [hfold, h c (by simp)]
      exact ih D (fun t ht => h t (by simp [ht]))

/-- C4 counterexample: the correction script synthesized for the candidate
list `[("b", "c", _), ("a", "b", _)]` is not idempotent on the payload
`\x7b"a": 1\x7d`: the first application yields `\x7b"b": 1\x7d` (the rule
`b -> c` does not fire, the rule `a -> b` renames), the second application
yields `\x7b"c": 1\x7d` (now `b -> c` fires).  So "every synthesized
CorrectionScript is an idempotent mapping on payloads" is false as stated
over the synthesizer's input domain. -/
theorem fix_data_not_idempotent :
    fix_data [("b", "c", 500), ("a", "b", 500)]
        (fix_data [("b", "c", 500), ("a", "b", 500)] (Json.obj [("a", Json.num 1)])) ≠
      fix_data [("b", "c", 500), ("a", "b", 500)] (Json.obj [("a", Json.num 1)]) := by
  decide

/-- C4 amended: every CorrectionScript synthesized from a candidate list in
which (i) each rename is a sibling rename — the wrong and the correct path
share the same parent path, as the fuzzy matcher guarantees by pairing only
same-parent fields — and (ii) no candidate's correct path is a prefix of
(or equal to) any candidate's wrong path — as holds for matcher-derived
candidates, whose correct paths lie in the schema while wrong paths do not —
is an idempotent mapping on payloads: applying the script to its own output
equals applying it once. -/
theorem fix_data_idempotent (cands : List (String × String × Nat))
    (hsib : ∀ c ∈ cands, (splitDot c.1).dropLast = (splitDot c.2.1).dropLast)
    (hpre : ∀ c ∈ cands, ∀ s ∈ cands, pathPre (splitDot s.2.1) (splitDot c.1) = false)
    (P : Json) :
    fix_data cands (fix_data cands P) = fix_data cands P :=
  fix_data_of_all_noop cands (fix_data cands P)
    (fun c hc => fix_data_all_noop cands hsib hpre P c hc)

/-- C4 amended witness: the pipeline-shaped script renaming `nme` to `name`
is idempotent on a concrete payload. -/
theorem fix_data_idempotent_witness :
    fix_data [("nme", "name", 857)]
        (fix_data [("nme", "name", 857)] (Json.obj [("nme", Json.num 5)])) =
      fix_data [("nme", "name", 857)] (Json.obj [("nme", Json.num 5)]) :=
  fix_data_idempotent [("nme", "name", 857)] (by decide) (by decide)
    (Json.obj [("nme", Json.num 5)])

end FlaskProxy
